import Mathlib

/-!
Verification of the puzzle-platform core: a shallow embedding of the
Sudoku puzzle, the word-ladder puzzle, the search engine and the
controller history tree, together with theorems settling the spec claims.

Conventions of the embedding:
* Python strings are lists of characters (`Word`).
* Python exceptions are modelled by `Except PyErr`; a function that cannot
  raise keeps a plain return type.
* The word-ladder vocabulary (read from a file by the constructor, which the
  spec treats as an external collaborator supplying an immutable,
  length-filtered word list) is passed as an explicit parameter `V`.
* Loops whose iteration count is not structurally bounded (the breadth-first
  queue, the exhaustive enumeration over word ladders) take a fuel
  parameter; exhausting the fuel yields `none`, and a theorem shows fuel
  sufficient for termination.
-/

/-- The kinds of Python exception the embedded code can raise. -/
inductive PyErr where
  | valueError
  | indexError
  | unboundLocalError
  | nameError
  deriving DecidableEq

/-- Python strings, modelled as lists of characters. -/
abbrev Word := List Char

deriving instance DecidableEq for Except

/-- Python `range(start, stop)` as a list. -/
def pyRange (start stop : Nat) : List Nat :=
  (List.range (stop - start)).map (fun k => start + k)

/-- Python `range(start, stop, step)` for a positive step. -/
def pyRangeStep (start stop step : Nat) : List Nat :=
  (List.range ((stop - start + step - 1) / step)).map (fun k => start + k * step)

/-- Python string comparison: lexicographic on character code points. -/
def wordLe : Word → Word → Bool
  | [], _ => true
  | _ :: _, [] => false
  | a :: as, b :: bs => if a = b then wordLe as bs else decide (a < b)

/-- The propositional form of `wordLe`. -/
def wordLeP (a b : Word) : Prop := wordLe a b = true

instance : DecidableRel wordLeP := fun a b => by
  unfold wordLeP
  infer_instance

/-- Python `sorted` / `list.sort` on words: a stable ascending sort under an
antisymmetric total order, so any correct sort computes it; modelled by
insertion sort, which the kernel can evaluate. -/
def pySorted (l : List Word) : List Word := List.insertionSort wordLeP l

/-- `int(math.sqrt(ng))`, exact on the perfect squares the data model uses:
the largest `m ≤ ng` with `m * m ≤ ng`. -/
def intSqrt (ng : Nat) : Nat :=
  ((List.range (ng + 1)).filter (fun m => decide (m * m ≤ ng))).getLastD 0

/-- The sentinel returned by the hint functions on solved puzzles. -/
def alreadyStr : Word := "Already at a solution!".toList

/-- The sentinel returned by the hint functions when no extension leads anywhere. -/
def noExtensionsStr : Word := "No possible extensions!".toList

/-- The word-ladder puzzle state: attributes `_start`, `_target`,
`_used_words` and `_tried_words` of class `WordLadderPuzzle`.
The vocabulary `_words` is supplied externally (see the module comment). -/
structure WordLadderPuzzle where
  start : Word
  target : Word
  used_words : List Word
  tried_words : List Word
  deriving DecidableEq

namespace WordLadderPuzzle

/-- `WordLadderPuzzle.__init__`: appends `start` to the given used words and
starts with an empty tried-words list. -/
def init (start target : Word) (used_words : List Word) : WordLadderPuzzle :=
  ⟨start, target, used_words ++ [start], []⟩

/-- `WordLadderPuzzle.is_solved`: the start word equals the target word. -/
def is_solved (s : WordLadderPuzzle) : Bool :=
  decide (s.start = s.target)

/-- Python `word[:i] + word[i+1:]`: the word with the character at `i` dropped. -/
def dropAt (w : Word) (i : Nat) : Word := w.take i ++ w.drop (i + 1)

/-- `WordLadderPuzzle._possible_words`: every vocabulary word not already used
or tried is appended once per index `i` at which dropping position `i` from it
and from the current word gives the same string; the result is then sorted. -/
def possible_words (V : List Word) (s : WordLadderPuzzle) : List Word :=
  let new_words := V.foldl (fun acc word =>
    if word ∈ s.used_words ++ s.tried_words then acc
    else acc ++ (List.range s.start.length).filterMap (fun i =>
      if dropAt word i = dropAt s.start i then some word else none)) []
  pySorted new_words

/-- `WordLadderPuzzle._extend`: a fresh puzzle on the new word, carrying the
old used words (the constructor appends the new word to them). -/
def extend (s : WordLadderPuzzle) (word : Word) : WordLadderPuzzle :=
  init word s.target s.used_words

/-- `WordLadderPuzzle.extensions`. -/
def extensions (V : List Word) (s : WordLadderPuzzle) : List WordLadderPuzzle :=
  (possible_words V s).map (extend s)

/-- `WordLadderPuzzle.move`: `ValueError` unless the move is a possible word. -/
def move (V : List Word) (s : WordLadderPuzzle) (mv : Word) :
    Except PyErr WordLadderPuzzle :=
  if mv ∉ possible_words V s then .error .valueError else .ok (extend s mv)

/-- `WordLadderPuzzle.generate_strings`: the move from `s` to `new` is just
the new puzzle's start word. -/
def generate_strings (s new : WordLadderPuzzle) : Word := new.start

/-- `WordLadderPuzzle.add_tried_words`: assigns the tried-words attribute of
the receiver (an in-place mutation in the source; modelled as the state after
the assignment). -/
def add_tried_words (s : WordLadderPuzzle) (tried : List Word) : WordLadderPuzzle :=
  { s with tried_words := tried }

/-- `WordLadderPuzzle.__str__`. -/
def strWL (s : WordLadderPuzzle) : Word :=
  "word chain: ".toList ++ ['\n'] ++
    (s.used_words.dropLast.foldl (fun acc w => acc ++ w ++ " -> ".toList) []) ++
    s.used_words.getLastD [] ++ ['\n'] ++ "target word: ".toList ++ s.target

end WordLadderPuzzle

/-- Outcome of `solve_in_breadth`: the boolean flag and either the hint word
(`chain[i+1]`), the solved puzzle, or `None`. -/
abbrev BfsOut := Bool × Option (Sum Word WordLadderPuzzle)

/-- The hint extraction in `solve_in_breadth`:
`chain.index(puzzle.start_word())` followed by `chain[i+1]`. -/
def bfsHintWord (chain : List Word) (rootStart : Word) : Word :=
  chain.getD (chain.findIdx (fun w => decide (w = rootStart)) + 1) []

/-- The `for extension in extensions` loop body of `solve_in_breadth`:
each extension is told about the shared accumulator (`add_tried_words`,
modelled at dequeue time, see `bfs_loop`), solved extensions end the search,
the others are enqueued and their word appended to the accumulator.  The
boolean stored with each queue entry records whether `add_tried_words` was
called on it (true for every enqueued extension, false only for the seed). -/
def bfs_process (root : WordLadderPuzzle) (hint : Bool) :
    List WordLadderPuzzle → List (WordLadderPuzzle × Bool) → List Word →
    Sum BfsOut (List (WordLadderPuzzle × Bool) × List Word)
  | [], queue, acc => .inr (queue, acc)
  | e :: rest, queue, acc =>
    if e.is_solved then
      if hint then
        .inl (true, some (.inl (bfsHintWord e.used_words root.start)))
      else
        .inl (true, some (.inr (e.add_tried_words acc)))
    else
      bfs_process root hint rest (queue ++ [(e, true)])
        (acc ++ [WordLadderPuzzle.generate_strings root e])

/-- The `while` loop of `solve_in_breadth`.  A dequeued entry that was given
`add_tried_words(used_words)` reads the accumulator as its tried words (the
stored list object is the accumulator itself, so the read sees its current
contents); the seed state keeps its own tried words.  `none` means the fuel
ran out. -/
def bfs_loop (V : List Word) (root : WordLadderPuzzle) (hint : Bool) :
    Nat → List (WordLadderPuzzle × Bool) → List Word → Option BfsOut
  | 0, _, _ => none
  | _ + 1, [], _ => some (false, none)
  | fuel + 1, (p, touched) :: rest, acc =>
    let pp := if touched then p.add_tried_words acc else p
    match bfs_process root hint (WordLadderPuzzle.extensions V pp) rest acc with
    | .inl out => some out
    | .inr (queue, acc2) => bfs_loop V root hint fuel queue acc2

/-- `solve_in_breadth`: seeds the queue with the puzzle and an empty
accumulator. -/
def solve_in_breadth (V : List Word) (fuel : Nat) (root : WordLadderPuzzle)
    (hint : Bool) : Option BfsOut :=
  bfs_loop V root hint fuel [(root, false)] []

/-- `solve_breadth` (hence `solve` on a word-ladder puzzle, which dispatches
here because the state is not a `SudokuPuzzle`): the solved puzzle, or `None`. -/
def solve_ladder (V : List Word) (fuel : Nat) (root : WordLadderPuzzle) :
    Option (Option WordLadderPuzzle) :=
  match solve_in_breadth V fuel root false with
  | none => none
  | some (b, r) =>
    if b then
      some (match r with
        | some (.inr s) => some s
        | _ => none)
    else some none

/-- `hint_by_breadth`. -/
def hint_by_breadth (V : List Word) (fuel : Nat) (root : WordLadderPuzzle) :
    Option Word :=
  if root.is_solved then some alreadyStr
  else
    match solve_in_breadth V fuel root true with
    | none => none
    | some (b, r) =>
      if b then
        some (match r with
          | some (.inl w) => w
          | _ => [])
      else some noExtensionsStr

/-- `solve_complete` specialised to word-ladder states (the source function is
shared between the two variants); fuel-bounded, `none` when the fuel runs out.
The recursive call is made twice, as in the source (`if solve_complete(...):
solutions.extend(solve_complete(...))`). -/
def solve_complete_wl (V : List Word) : Nat → WordLadderPuzzle →
    Option (List WordLadderPuzzle)
  | 0, _ => none
  | fuel + 1, s =>
    if s.is_solved then some [s]
    else
      (WordLadderPuzzle.extensions V s).foldlM (fun sols e =>
        (solve_complete_wl V fuel e).bind (fun r =>
          if r.isEmpty then some sols
          else (solve_complete_wl V fuel e).map (fun r2 => sols ++ r2))) []

namespace SudokuPuzzle

/-- A grid cell: `none` is the empty string, `some c` an uppercase letter. -/
abbrev Cell := Option Char

/-- The grid attribute `_grid`: a list of rows. -/
abbrev Grid := List (List Cell)

/-- The alphabet constant `CHARS` of the Sudoku module. -/
def CHARS : List Char := "ABCDEFGHIJKLMNOPQRSTUVWXYZ".toList

/-- The size attribute `_n`, set to `len(grid)` by the constructor. -/
def n (g : Grid) : Nat := g.length

/-- Total cell lookup `grid[i][j]` (the embedded code only indexes in
range on the well-formed grids the claims quantify over). -/
def cellAt (g : Grid) (i j : Nat) : Cell := (g.getD i []).getD j none

/-- The order Python `sorted` uses on cells: the empty string precedes every
letter, letters compare by code point. -/
def cellLe : Cell → Cell → Bool
  | none, _ => true
  | some _, none => false
  | some a, some b => decide (a ≤ b)

/-- The propositional form of `cellLe`. -/
def cellLeP (a b : Cell) : Prop := cellLe a b = true

instance : DecidableRel cellLeP := fun a b => by
  unfold cellLeP
  infer_instance

/-- Python `sorted` on a list of cells (see `pySorted`). -/
def sortedCells (row : List Cell) : List Cell := List.insertionSort cellLeP row

/-- `SudokuPuzzle.is_solved`: no empty cell, and every row, column and
subsquare sorts to the first `n` letters. -/
def is_solved (g : Grid) : Bool :=
  if g.any (fun row => decide (none ∈ row)) then false
  else if g.any (fun row =>
      decide (sortedCells row ≠ (CHARS.take (n g)).map some)) then false
  else if (List.range (n g)).any (fun i =>
      decide (sortedCells (g.map (fun row => row.getD i none)) ≠
        (CHARS.take (n g)).map some)) then false
  else
    let m := intSqrt (n g)
    if (pyRangeStep 0 (n g) m).any (fun x => (pyRangeStep 0 (n g) m).any (fun y =>
        decide (sortedCells ((List.range m).flatMap (fun i => (List.range m).map (fun j =>
          cellAt g (x + i) (y + j)))) ≠ (CHARS.take (n g)).map some))) then false
    else true

/-- `SudokuPuzzle._find_subsquare`: scans the block starts; `none` models the
`UnboundLocalError` raised when a loop variable is never assigned (indices
outside every block). -/
def find_subsquare (ng ri ci : Nat) : Option (Nat × Nat × Nat) :=
  let m := intSqrt ng
  match (pyRangeStep 0 ng m).find? (fun r => decide (ri ∈ pyRange r (r + m))),
        (pyRangeStep 0 ng m).find? (fun c => decide (ci ∈ pyRange c (c + m))) with
  | some r, some c => some (r, c, m)
  | _, _ => none

/-- The `delete_letters` accumulation of `_possible_letters` for one candidate
letter: letters in the row are appended once, otherwise one append per
occurrence in the column, then one per subsquare occurrence guarded by
`letter not in delete_letters`. -/
def deleteStep (g : Grid) (ri ci r c m : Nat) (dl : List Char) (letter : Char) :
    List Char :=
  if some letter ∈ g.getD ri [] then dl ++ [letter]
  else
    let dl1 := (List.range (n g)).foldl (fun a i =>
      if cellAt g i ci = some letter then a ++ [letter] else a) dl
    (pyRange 0 m).foldl (fun a j => (pyRange 0 m).foldl (fun a k =>
      if cellAt g (r + j) (c + k) = some letter ∧ letter ∉ a then a ++ [letter]
      else a) a) dl1

/-- Python `list.remove`: drops the first occurrence, `ValueError` if absent. -/
def pyRemove (l : List Char) (a : Char) : Except PyErr (List Char) :=
  if a ∈ l then .ok (l.erase a) else .error .valueError

/-- `SudokuPuzzle._possible_letters`. -/
def possible_letters (g : Grid) (ri ci : Nat) : Except PyErr (List Char) :=
  match find_subsquare (n g) ri ci with
  | none => .error .unboundLocalError
  | some (r, c, m) =>
    let possible := CHARS.take (n g)
    let dels := possible.foldl (deleteStep g ri ci r c m) []
    dels.foldlM pyRemove possible

/-- `SudokuPuzzle._extend`: copy the grid and fill one cell. -/
def extend (g : Grid) (letter : Char) (ri ci : Nat) : Grid :=
  g.set ri ((g.getD ri []).set ci (some letter))

/-- The first empty cell in row-major order, as `extensions` locates it:
the first row containing an empty cell, and `row.index('')` within it. -/
def firstEmptyCell (g : Grid) : Option (Nat × Nat) :=
  match g.findIdx? (fun row => decide (none ∈ row)) with
  | none => none
  | some ri => some (ri, (g.getD ri []).findIdx (fun cell => decide (cell = none)))

/-- `SudokuPuzzle.extensions` (propagates the `ValueError` that
`_possible_letters` can raise on a conflicted column). -/
def extensions (g : Grid) : Except PyErr (List Grid) :=
  match firstEmptyCell g with
  | none => .ok []
  | some (ri, ci) =>
    (possible_letters g ri ci).map (fun letters =>
      letters.map (fun letter => extend g letter ri ci))

/-- The inner loop of `generate_strings` for row `i`: the first differing
column, with the new puzzle's cell there (the `break` leaves the outer loop
running, so later rows overwrite earlier ones). -/
def rowFirstDiff (g e : Grid) (i : Nat) : Option (Nat × Cell) :=
  ((List.range (n g)).find? (fun j => decide (cellAt g i j ≠ cellAt e i j))).map
    (fun j => (j, cellAt e i j))

/-- `SudokuPuzzle.generate_strings`: renders `(row, col) -> letter` for the
last row holding a difference; `NameError` models the unbound `char` when the
grids are identical. -/
def generate_strings (g e : Grid) : Except PyErr Word :=
  let found := (List.range (n g)).foldl (fun acc i =>
    match rowFirstDiff g e i with
    | some (j, ch) => some (i, j, ch)
    | none => acc) none
  match found with
  | none => .error .nameError
  | some (i, j, ch) =>
    .ok (('(' :: Nat.toDigits 10 i) ++ (',' :: ' ' :: Nat.toDigits 10 j) ++
      (')' :: ' ' :: '-' :: '>' :: ' ' ::
        (match ch with | none => [] | some c => [c])))

/-- Python `int()` on a one-character string. -/
def pyIntOfChar (c : Char) : Except PyErr Nat :=
  if c.isDigit then .ok (c.toNat - 48) else .error .valueError

/-- Python list indexing `move[k]`. -/
def pyGet (l : Word) (k : Nat) : Except PyErr Char :=
  match l.get? k with
  | some c => .ok c
  | none => .error .indexError

/-- `SudokuPuzzle.move`: parses `move[1]`, `move[4]`, `move[-1]`, computes the
possible letters (before any range check, as in the source), then raises
`ValueError` on an out-of-range index, a letter outside the candidate set, or
an already filled cell. -/
def move (g : Grid) (mv : Word) : Except PyErr Grid := do
  let ri ← pyIntOfChar (← pyGet mv 1)
  let ci ← pyIntOfChar (← pyGet mv 4)
  let letter ← match mv.getLast? with
    | some c => Except.ok c
    | none => Except.error PyErr.indexError
  let pls ← possible_letters g ri ci
  if ri ∉ List.range (n g) ∨ ci ∉ List.range (n g) then .error .valueError
  else if letter ∉ pls then .error .valueError
  else if cellAt g ri ci ≠ none then .error .valueError
  else .ok (extend g letter ri ci)

mutual

/-- `solve_in_depth`: solved states succeed, the bound `k` cuts the search,
otherwise the extensions are probed in order. -/
def solve_in_depth : Nat → Grid → Except PyErr Bool
  | k, g =>
    if is_solved g then .ok true
    else
      match k with
      | 0 => .ok false
      | m + 1 => (extensions g).bind (fun l => depthAny m l)
termination_by k _ => (k, 0)

/-- The `for extension in puzzle.extensions()` loop of `solve_in_depth`. -/
def depthAny : Nat → List Grid → Except PyErr Bool
  | _, [] => .ok false
  | m, e :: rest =>
    (solve_in_depth m e).bind (fun sol => if sol then .ok true else depthAny m rest)
termination_by m l => (m, l.length + 1)

end

/-- The `for extension in puzzle.extensions()` loop of `hint_by_depth`. -/
def hintLoop (g : Grid) (k : Nat) : List Grid → Except PyErr Word
  | [] => .ok noExtensionsStr
  | e :: rest =>
    (solve_in_depth k e).bind (fun b =>
      if b then generate_strings g e else hintLoop g k rest)

/-- `hint_by_depth` (for non-negative limits; the source default is 100). -/
def hint_by_depth (g : Grid) (limit : Nat) : Except PyErr Word :=
  if is_solved g then .ok alreadyStr
  else (extensions g).bind (fun l => hintLoop g (limit - 1) l)

/-- Python `str.rstrip`, dropping trailing whitespace. -/
def pyRstrip (w : Word) : Word := (w.reverse.dropWhile Char.isWhitespace).reverse

/-- `SudokuPuzzle.__str__`: column labels, dividers, and one (right-stripped)
line per row. -/
def strS (g : Grid) : Word :=
  let m := intSqrt (n g)
  let header := [' ', ' '] ++ (List.range (n g)).foldl (fun acc col =>
    acc ++ Nat.toDigits 10 (col % 10) ++
      (if (col + 1) % m = 0 ∧ col + 1 ≠ n g then ['|'] else [])) []
  let divider := [' '] ++ List.replicate (n g + m) '-'
  header ++ ['\n'] ++ divider ++ ['\n'] ++
    (List.range (n g)).foldl (fun acc i =>
      let line := Nat.toDigits 10 (i % 10) ++ ['|'] ++
        (List.range (n g)).foldl (fun acc2 j =>
          acc2 ++ (match cellAt g i j with | none => [' '] | some c => [c]) ++
            (if (j + 1) % m = 0 ∧ j + 1 ≠ n g then ['|'] else [])) []
      acc ++ pyRstrip line ++ ['\n'] ++
        (if (i + 1) % m = 0 ∧ i + 1 ≠ n g then divider ++ ['\n'] else [])) []

end SudokuPuzzle

namespace SudokuPuzzle

/-- Specification side: the letters present in row `i`. -/
def rowLetters (g : Grid) (i : Nat) : List Char := (g.getD i []).filterMap id

/-- Specification side: the letters present in column `j`. -/
def colLetters (g : Grid) (j : Nat) : List Char :=
  (List.range (n g)).filterMap (fun i => cellAt g i j)

/-- Specification side: the cells of the `m`-by-`m` subsquare with top-left
corner `(r, c)`, in row-major order. -/
def blockCells (g : Grid) (r c m : Nat) : List Cell :=
  ((List.range m).flatMap (fun i => (List.range m).map (fun j => (i, j)))).map
    (fun p => cellAt g (r + p.1) (c + p.2))

/-- Specification side: the letters present in that subsquare. -/
def blockLetters (g : Grid) (r c m : Nat) : List Char :=
  (blockCells g r c m).filterMap id

/-- Specification side: the candidate letters for cell `(ri, ci)` — the first
`n` alphabet letters minus those present in its row, column and subsquare. -/
def candidates (g : Grid) (ri ci : Nat) : List Char :=
  let m := intSqrt (n g)
  (CHARS.take (n g)).filter (fun L =>
    decide (L ∉ rowLetters g ri ∧ L ∉ colLetters g ci ∧
      L ∉ blockLetters g (ri / m * m) (ci / m * m) m))

/-- Well-formed square grid: every row has length `n`. -/
def WF (g : Grid) : Prop := ∀ row ∈ g, row.length = g.length

/-- The grid sizes allowed by the data model. -/
def SizeOK (g : Grid) : Prop :=
  g.length = 4 ∨ g.length = 9 ∨ g.length = 16 ∨ g.length = 25

/-- Conflict-free: no letter repeats inside a row, a column, or a subsquare
(the subsquare corners are the ones the source iterates over). -/
def Good (g : Grid) : Prop :=
  (∀ i ∈ List.range (n g), (rowLetters g i).Nodup) ∧
  (∀ j ∈ List.range (n g), (colLetters g j).Nodup) ∧
  (∀ r ∈ pyRangeStep 0 (n g) (intSqrt (n g)),
    ∀ c ∈ pyRangeStep 0 (n g) (intSqrt (n g)),
      (blockLetters g r c (intSqrt (n g))).Nodup)

/-- Specification side: the grid can reach a solved grid in at most `k` moves
along `extensions`. -/
inductive Solvable : Grid → Nat → Prop where
  | base (g : Grid) (k : Nat) : is_solved g = true → Solvable g k
  | step (g : Grid) (k : Nat) (l : List Grid) (e : Grid) :
      extensions g = .ok l → e ∈ l → Solvable e k → Solvable g (k + 1)

end SudokuPuzzle

/-- The history tree `_ControllerTree`: a puzzle state, the user input that
led to it (`none` only for the root), and the subtrees. -/
inductive ControllerTree (P : Type) where
  | node (puzzle : P) (user_input : Option Word) (subtrees : List (ControllerTree P))

namespace ControllerTree

/-- The `_puzzle` attribute. -/
def puzzle : ControllerTree P → P
  | node p _ _ => p

/-- The `_user_input` attribute. -/
def user_input : ControllerTree P → Option Word
  | node _ u _ => u

/-- The `_subtrees` attribute. -/
def subtrees : ControllerTree P → List (ControllerTree P)
  | node _ _ s => s

/-- `_ControllerTree.in_subtree`: the first subtree whose puzzle state has the
same display string, if any (`disp` is the variant's display function). -/
def in_subtree (disp : P → Word) (t : ControllerTree P) (p : P) :
    Option (ControllerTree P) :=
  t.subtrees.find? (fun st => decide (disp st.puzzle = disp p))

/-- The history-tree update of `Controller._act_move` after the move has been
applied: reuse a display-equal child as the new cursor, or attach a new child
holding the new state and the move text and make it the cursor.  Returns the
updated current node and the new cursor. -/
def act_move_insert (disp : P → Word) (t : ControllerTree P) (newPuzzle : P)
    (action : Word) : ControllerTree P × ControllerTree P :=
  match in_subtree disp t newPuzzle with
  | some st => (t, st)
  | none =>
    let nt : ControllerTree P := node newPuzzle (some action) []
    (node t.puzzle t.user_input (t.subtrees ++ [nt]), nt)

/-- Specification side: no two children of the node hold states with equal
display strings. -/
def ChildrenDistinct (disp : P → Word) (t : ControllerTree P) : Prop :=
  t.subtrees.Pairwise (fun a b => disp a.puzzle ≠ disp b.puzzle)

end ControllerTree

namespace WordLadderPuzzle

/-- Specification side: the number of positions at which the two words differ
(meaningful when they have equal length). -/
def diffCount (w s : Word) : Nat :=
  (List.range s.length).countP (fun j => decide (w.getD j ' ' ≠ s.getD j ' '))

/-- Specification side: the candidate predicate of the spec — not used, not
tried, and differing from the current word in exactly one position. -/
def specCandidate (s : WordLadderPuzzle) (w : Word) : Bool :=
  decide (w ∉ s.used_words ++ s.tried_words ∧ diffCount w s.start = 1)

/-- The invariant the constructor establishes and `extend` preserves. -/
def Inv (s : WordLadderPuzzle) : Prop := s.start ∈ s.used_words

/-- A vocabulary fit for a ladder over words of length `L`: duplicate-free,
all entries of length `L` (the loader filters to the start word's length). -/
def VocabOK (V : List Word) (L : Nat) : Prop :=
  V.Nodup ∧ ∀ w ∈ V, w.length = L

end WordLadderPuzzle

namespace Examples

/-- A one-word vocabulary. -/
def catVocab : List Word := [['c', 'a', 't']]

/-- An already-solved ladder puzzle: start and target are both `cat`. -/
def solvedLadder : WordLadderPuzzle :=
  WordLadderPuzzle.init ['c', 'a', 't'] ['c', 'a', 't'] []

/-- The vocabulary holding only `bat`. -/
def batVocab : List Word := [['b', 'a', 't']]

/-- A two-word vocabulary: `bat` and `rat`. -/
def batRatVocab : List Word := [['b', 'a', 't'], ['r', 'a', 't']]

/-- The unsolved ladder puzzle from `cat` towards `dog`. -/
def catToDog : WordLadderPuzzle :=
  WordLadderPuzzle.init ['c', 'a', 't'] ['d', 'o', 'g'] []

/-- An empty 4-by-4 grid. -/
def emptyGrid4 : SudokuPuzzle.Grid := List.replicate 4 (List.replicate 4 none)

/-- The move text `(5, 0) -> A`, naming a row outside a 4-by-4 grid. -/
def oobMove : Word := "(5, 0) -> A".toList

/-- The 4-by-4 grid of the module's doctests: two rows solved, cell `(2, 2)`
the first empty one, with `D` its only candidate. -/
def docGrid4 : SudokuPuzzle.Grid :=
  [[some 'A', some 'B', some 'C', some 'D'],
   [some 'C', some 'D', some 'A', some 'B'],
   [some 'B', some 'A', none, none],
   [some 'D', some 'C', none, none]]

/-- A 16-by-16 grid whose first ten rows hold the sixteen letters rotated row
by row and whose last six rows are empty, so the first empty cell is
`(10, 0)` — a cell whose row index needs two digits. -/
def bigGrid16 : SudokuPuzzle.Grid :=
  (List.range 16).map (fun i =>
    if i < 10 then
      (List.range 16).map (fun j =>
        some (SudokuPuzzle.CHARS.getD ((i + j) % 16) 'A'))
    else List.replicate 16 none)

/-- A completely (and validly) filled 4-by-4 grid. -/
def solvedGrid4 : SudokuPuzzle.Grid :=
  [[some 'A', some 'B', some 'C', some 'D'],
   [some 'C', some 'D', some 'A', some 'B'],
   [some 'B', some 'A', some 'D', some 'C'],
   [some 'D', some 'C', some 'B', some 'A']]

end Examples

namespace SudokuPuzzle

instance (g : Grid) : Decidable (WF g) := by
  unfold WF
  infer_instance

instance (g : Grid) : Decidable (SizeOK g) := by
  unfold SizeOK
  infer_instance

instance (g : Grid) : Decidable (Good g) := by
  unfold Good
  infer_instance

end SudokuPuzzle

namespace WordLadderPuzzle

instance (s : WordLadderPuzzle) : Decidable (Inv s) := by
  unfold Inv
  infer_instance

instance (V : List Word) (L : Nat) : Decidable (VocabOK V L) := by
  unfold VocabOK
  infer_instance

end WordLadderPuzzle

namespace ControllerTree

instance (disp : P → Word) (t : ControllerTree P) :
    Decidable (ChildrenDistinct disp t) := by
  unfold ChildrenDistinct
  infer_instance

end ControllerTree

namespace WordLadderPuzzle

theorem wordLe_total (a b : Word) : wordLe a b = true ∨ wordLe b a = true := by
  induction a generalizing b with
  | nil => left; rfl
  | cons c cs ih =>
    cases b with
    | nil => right; rfl
    | cons d ds =>
      by_cases h : c = d
      · subst h
        simpa only [wordLe, if_pos rfl] using ih ds
      · rcases lt_or_gt_of_ne h with hlt | hgt
        · left
          simp [wordLe, h, hlt]
        · right
          simp [wordLe, Ne.symm h, hgt]

theorem wordLe_trans (a b c : Word) (h1 : wordLe a b = true)
    (h2 : wordLe b c = true) : wordLe a c = true := by
  induction a generalizing b c with
  | nil => rfl
  | cons x xs ih =>
    cases b with
    | nil => simp [wordLe] at h1
    | cons y ys =>
      cases c with
      | nil => simp [wordLe] at h2
      | cons z zs =>
        by_cases hxy : x = y
        · subst hxy
          by_cases hyz : x = z
          · subst hyz
            simp only [wordLe, if_pos rfl] at h1 h2 ⊢
            exact ih ys zs h1 h2
          · simp only [wordLe, if_neg hyz] at h2 ⊢
            exact h2
        · by_cases hyz : y = z
          · subst hyz
            simp only [wordLe, if_neg hxy] at h1 ⊢
            exact h1
          · simp only [wordLe, if_neg hxy, decide_eq_true_eq] at h1
            simp only [wordLe, if_neg hyz, decide_eq_true_eq] at h2
            by_cases hxz : x = z
            · subst hxz
              exact absurd (lt_trans h1 h2) (lt_irrefl x)
            · simp only [wordLe, if_neg hxz, decide_eq_true_eq]
              exact lt_trans h1 h2

instance : IsTotal Word wordLeP := ⟨fun a b => wordLe_total a b⟩

instance : IsTrans Word wordLeP := ⟨fun a b c => wordLe_trans a b c⟩

theorem getD_eq_getElem_of_lt {l : List Char} {j : Nat} (h : j < l.length)
    (d : Char) : l.getD j d = l[j] := by
  rw [List.getD_eq_getElem?_getD, List.getElem?_eq_getElem h, Option.getD_some]

theorem eq_of_agree {w s : Word} (hl : w.length = s.length)
    (h : ∀ j, j < s.length → w.getD j ' ' = s.getD j ' ') : w = s := by
  apply List.ext_getElem hl
  intro j h1 h2
  have hj := h j h2
  rwa [getD_eq_getElem_of_lt h1, getD_eq_getElem_of_lt h2] at hj

theorem dropAt_eq_iff {w s : Word} (hl : w.length = s.length) {i : Nat}
    (hi : i < s.length) :
    dropAt w i = dropAt s i ↔
      ∀ j, j < s.length → j ≠ i → w.getD j ' ' = s.getD j ' ' := by
  unfold dropAt
  constructor
  · intro h j hj hne
    have hlen : (w.take i).length = (s.take i).length := by
      simp [List.length_take, hl]
    obtain ⟨h1, h2⟩ := List.append_inj h hlen
    have hjw : j < w.length := hl ▸ hj
    rcases Nat.lt_or_ge j i with hji | hji
    · have hq := congrArg (fun l => l[j]?) h1
      simp only [List.getElem?_take, if_pos hji] at hq
      rw [List.getD_eq_getElem?_getD, List.getD_eq_getElem?_getD, hq]
    · have hji2 : i + 1 ≤ j := Nat.lt_of_le_of_ne hji (Ne.symm hne)
      have hq := congrArg (fun l => l[j - (i + 1)]?) h2
      simp only [List.getElem?_drop] at hq
      rw [Nat.add_sub_cancel' hji2] at hq
      rw [List.getD_eq_getElem?_getD, List.getD_eq_getElem?_getD, hq]
  · intro h
    have t1 : w.take i = s.take i := by
      apply List.ext_getElem?
      intro k
      simp only [List.getElem?_take]
      by_cases hk : k < i
      · simp only [if_pos hk]
        have hks : k < s.length := lt_trans hk hi
        have hkw : k < w.length := hl ▸ hks
        rw [List.getElem?_eq_getElem hkw, List.getElem?_eq_getElem hks]
        have hv := h k hks (Nat.ne_of_lt hk)
        rw [getD_eq_getElem_of_lt hkw, getD_eq_getElem_of_lt hks] at hv
        rw [hv]
      · simp [if_neg hk]
    have t2 : w.drop (i + 1) = s.drop (i + 1) := by
      apply List.ext_getElem?
      intro k
      rw [List.getElem?_drop, List.getElem?_drop]
      by_cases hk : i + 1 + k < s.length
      · have hkw : i + 1 + k < w.length := hl ▸ hk
        rw [List.getElem?_eq_getElem hkw, List.getElem?_eq_getElem hk]
        have hv := h (i + 1 + k) hk (by omega)
        rw [getD_eq_getElem_of_lt hkw, getD_eq_getElem_of_lt hk] at hv
        rw [hv]
      · rw [List.getElem?_eq_none (by omega), List.getElem?_eq_none (by omega)]
    rw [t1, t2]

theorem filterMap_eq_singleton {α : Type} {l : List Nat} {f : Nat → Option α}
    {j : Nat} {w : α} (hnd : l.Nodup) (hj : j ∈ l) (hfj : f j = some w)
    (ho : ∀ i ∈ l, i ≠ j → f i = none) : l.filterMap f = [w] := by
  induction l with
  | nil => cases hj
  | cons a t ih =>
    rcases List.mem_cons.mp hj with rfl | hjt
    · rw [List.filterMap_cons, hfj]
      have ht : t.filterMap f = [] := by
        rw [List.filterMap_eq_nil_iff]
        intro x hx
        exact ho x (List.mem_cons_of_mem _ hx)
          (fun hxj => (List.nodup_cons.mp hnd).1 (hxj ▸ hx))
      rw [ht]
    · have ha : f a = none :=
        ho a (List.mem_cons_self a t)
          (fun haj => (List.nodup_cons.mp hnd).1 (haj ▸ hjt))
      simp only [List.filterMap_cons, ha]
      exact ih (List.nodup_cons.mp hnd).2 hjt
        (fun i hi hij => ho i (List.mem_cons_of_mem _ hi) hij)

theorem range_filterMap_dropAt {w : Word} (s : WordLadderPuzzle)
    (hl : w.length = s.start.length) (hne : w ≠ s.start) :
    (List.range s.start.length).filterMap (fun i =>
        if dropAt w i = dropAt s.start i then some w else none) =
      if diffCount w s.start = 1 then [w] else [] := by
  classical
  obtain ⟨D, hDdef⟩ : ∃ D, (List.range s.start.length).filter
      (fun j => decide (w.getD j ' ' ≠ s.start.getD j ' ')) = D := ⟨_, rfl⟩
  have hcount : diffCount w s.start = D.length := by
    rw [diffCount, List.countP_eq_length_filter, hDdef]
  have hmemD : ∀ j, j ∈ D ↔ j < s.start.length ∧ w.getD j ' ' ≠ s.start.getD j ' ' := by
    intro j
    rw [← hDdef]
    simp [List.mem_filter, List.mem_range]
  have hDnd : D.Nodup := hDdef ▸ (List.nodup_range _).filter _
  have hpred : ∀ i, i < s.start.length →
      (dropAt w i = dropAt s.start i ↔ ∀ j ∈ D, j = i) := by
    intro i hi
    rw [dropAt_eq_iff hl hi]
    constructor
    · intro h j hj
      rcases (hmemD j).mp hj with ⟨hjl, hjd⟩
      by_contra hne2
      exact hjd (h j hjl hne2)
    · intro h j hjl hne2
      by_contra hx
      exact hne2 (h j ((hmemD j).mpr ⟨hjl, hx⟩))
  cases D with
  | nil =>
    exfalso
    apply hne
    apply eq_of_agree hl
    intro j hj
    by_contra hx
    cases (hmemD j).mpr ⟨hj, hx⟩
  | cons j0 t =>
    cases t with
    | nil =>
      have hj0 : j0 ∈ [j0] := List.mem_cons_self _ _
      rcases (hmemD j0).mp hj0 with ⟨hj0l, _⟩
      rw [if_pos (by simp [hcount] : diffCount w s.start = 1)]
      apply filterMap_eq_singleton (List.nodup_range _) (List.mem_range.mpr hj0l)
      · rw [if_pos ((hpred j0 hj0l).mpr (fun j hj => List.mem_singleton.mp hj))]
      · intro i hi hij
        rw [if_neg]
        intro hcon
        exact hij ((hpred i (List.mem_range.mp hi)).mp hcon j0 hj0).symm
    | cons j2 rest =>
      have hj1 : j0 ∈ j0 :: j2 :: rest := List.mem_cons_self _ _
      have hj2 : j2 ∈ j0 :: j2 :: rest :=
        List.mem_cons_of_mem _ (List.mem_cons_self _ _)
      have hne12 : j0 ≠ j2 := by
        intro h
        exact (List.nodup_cons.mp hDnd).1 (h ▸ List.mem_cons_self _ _)
      have htwo : diffCount w s.start ≠ 1 := by
        rw [hcount]
        simp
      rw [if_neg htwo, List.filterMap_eq_nil_iff]
      intro i hi
      rw [if_neg]
      intro hcon
      have h1 := (hpred i (List.mem_range.mp hi)).mp hcon j0 hj1
      have h2 := (hpred i (List.mem_range.mp hi)).mp hcon j2 hj2
      exact hne12 (h1.trans h2.symm)

theorem possible_fold_eq (s : WordLadderPuzzle) (hInv : Inv s) :
    ∀ (V : List Word) (acc : List Word), (∀ w ∈ V, w.length = s.start.length) →
      V.foldl (fun acc word =>
        if word ∈ s.used_words ++ s.tried_words then acc
        else acc ++ (List.range s.start.length).filterMap (fun i =>
          if dropAt word i = dropAt s.start i then some word else none)) acc =
      acc ++ V.filter (specCandidate s)
  | [], acc, _ => by simp
  | w :: V2, acc, hlen => by
    rw [List.foldl_cons, List.filter_cons]
    have ih := possible_fold_eq s hInv V2
    by_cases hC : w ∈ s.used_words ++ s.tried_words
    · rw [if_pos hC]
      have hsc : specCandidate s w = false := by
        simp only [specCandidate, decide_eq_false_iff_not]
        intro hcon
        exact hcon.1 hC
      rw [hsc, ih acc (fun x hx => hlen x (List.mem_cons_of_mem _ hx))]
      simp
    · rw [if_neg hC]
      have hwne : w ≠ s.start := by
        intro h
        exact hC (h ▸ List.mem_append_left _ hInv)
      rw [range_filterMap_dropAt s (hlen w (List.mem_cons_self _ _)) hwne]
      by_cases hd : diffCount w s.start = 1
      · have hsc : specCandidate s w = true := by
          simp only [specCandidate, decide_eq_true_eq]
          exact ⟨hC, hd⟩
        rw [if_pos hd, hsc, ih (acc ++ [w]) (fun x hx => hlen x (List.mem_cons_of_mem _ hx))]
        simp
      · have hsc : specCandidate s w = false := by
          simp only [specCandidate, decide_eq_false_iff_not]
          intro hcon
          exact hd hcon.2
        rw [if_neg hd, hsc, List.append_nil,
          ih acc (fun x hx => hlen x (List.mem_cons_of_mem _ hx))]
        simp

/-- `_possible_words` computes exactly the sorted list of vocabulary entries
that are unused, untried, and one edit away from the current word. -/
theorem possible_words_eq (V : List Word) (s : WordLadderPuzzle) (hInv : Inv s)
    (hlen : ∀ w ∈ V, w.length = s.start.length) :
    possible_words V s = pySorted (V.filter (specCandidate s)) := by
  unfold possible_words
  rw [possible_fold_eq s hInv V [] hlen]
  simp

theorem mem_possible_words {V : List Word} {s : WordLadderPuzzle} (hInv : Inv s)
    (hlen : ∀ w ∈ V, w.length = s.start.length) {w : Word} :
    w ∈ possible_words V s ↔ w ∈ V ∧ specCandidate s w = true := by
  rw [possible_words_eq V s hInv hlen, pySorted,
    (List.perm_insertionSort wordLeP _).mem_iff]
  exact List.mem_filter

theorem possible_words_nodup {V : List Word} {s : WordLadderPuzzle} (hInv : Inv s)
    (hlen : ∀ w ∈ V, w.length = s.start.length) (hV : V.Nodup) :
    (possible_words V s).Nodup := by
  rw [possible_words_eq V s hInv hlen, pySorted]
  exact (List.perm_insertionSort wordLeP _).symm.nodup (hV.filter _)

theorem possible_words_sorted (V : List Word) (s : WordLadderPuzzle) :
    List.Sorted wordLeP (possible_words V s) := by
  unfold possible_words
  exact List.sorted_insertionSort wordLeP _

end WordLadderPuzzle

theorem nodup_subset_length_le {l l2 : List Word} (hn : l.Nodup) (hs : l ⊆ l2) :
    l.length ≤ l2.length := by
  calc l.length = l.toFinset.card := (List.toFinset_card_of_nodup hn).symm
  _ ≤ l2.toFinset.card := Finset.card_le_card (by
      intro x hx
      rw [List.mem_toFinset] at hx ⊢
      exact hs hx)
  _ ≤ l2.length := List.toFinset_card_le l2

namespace WordLadderPuzzle

theorem extend_start (s : WordLadderPuzzle) (w : Word) : (extend s w).start = w := rfl

theorem extend_used (s : WordLadderPuzzle) (w : Word) :
    (extend s w).used_words = s.used_words ++ [w] := rfl

theorem extend_target (s : WordLadderPuzzle) (w : Word) :
    (extend s w).target = s.target := rfl

theorem extend_inv (s : WordLadderPuzzle) (w : Word) : Inv (extend s w) := by
  unfold Inv
  rw [extend_start, extend_used]
  exact List.mem_append_right _ (List.mem_cons_self _ _)

theorem mem_extensions {V : List Word} {s e : WordLadderPuzzle} :
    e ∈ extensions V s ↔ ∃ w ∈ possible_words V s, e = extend s w := by
  unfold extensions
  constructor
  · intro h
    rcases List.mem_map.mp h with ⟨w, hw, he⟩
    exact ⟨w, hw, he.symm⟩
  · intro ⟨w, hw, he⟩
    exact List.mem_map.mpr ⟨w, hw, he.symm⟩

/-- The words of the extensions of a state lie in the vocabulary, avoid its
tried words, carry the constructor invariant, and are pairwise distinct. -/
theorem extensions_words_spec {V : List Word} {L : Nat} (hV : VocabOK V L)
    {s : WordLadderPuzzle} (hs : Inv s) (hsl : s.start.length = L) :
    (∀ e ∈ extensions V s,
        e.start ∈ V ∧ e.start ∉ s.tried_words ∧ Inv e ∧ e.start.length = L) ∧
      ((extensions V s).map (fun e => e.start)).Nodup := by
  have hlen : ∀ w ∈ V, w.length = s.start.length := by
    intro w hw
    rw [hsl]
    exact hV.2 w hw
  constructor
  · intro e he
    rcases mem_extensions.mp he with ⟨w, hw, rfl⟩
    rcases (mem_possible_words hs hlen).mp hw with ⟨hwV, hsc⟩
    rcases (decide_eq_true_eq.mp hsc) with ⟨hnot, _⟩
    refine ⟨hwV, ?_, extend_inv _ _, (hV.2 w hwV).trans rfl⟩
    intro hwacc
    exact hnot (List.mem_append_right _ hwacc)
  · have : (extensions V s).map (fun e => e.start) = possible_words V s := by
      unfold extensions
      rw [List.map_map]
      exact List.map_congr_left (fun w _ => rfl) |>.trans (List.map_id _)
    rw [this]
    exact possible_words_nodup hs hlen hV.1

end WordLadderPuzzle

/-- When the loop body finishes a batch of extensions without returning, the
new queue and accumulator extend the old ones by the non-solved extensions, in
order. -/
theorem bfs_process_inr (root : WordLadderPuzzle) (hint : Bool) :
    ∀ (exts : List WordLadderPuzzle) (queue : List (WordLadderPuzzle × Bool))
      (acc : List Word) (q2 : List (WordLadderPuzzle × Bool)) (acc2 : List Word),
      bfs_process root hint exts queue acc = .inr (q2, acc2) →
      ∃ new : List WordLadderPuzzle, new.Sublist exts ∧
        acc2 = acc ++ new.map (fun e => e.start) ∧
        q2 = queue ++ new.map (fun e => (e, true))
  | [], queue, acc, q2, acc2, h => by
    simp only [bfs_process, Sum.inr.injEq, Prod.mk.injEq] at h
    obtain ⟨rfl, rfl⟩ := h
    exact ⟨[], List.nil_sublist _, by simp, by simp⟩
  | e :: rest, queue, acc, q2, acc2, h => by
    simp only [bfs_process] at h
    by_cases hs : e.is_solved = true
    · rw [if_pos hs] at h
      cases hint <;> simp at h
    · rw [if_neg hs] at h
      obtain ⟨new, hsub, hacc, hq⟩ := bfs_process_inr root hint rest _ _ _ _ h
      refine ⟨e :: new, hsub.cons₂ e, ?_, ?_⟩
      · rw [hacc, List.map_cons, List.append_assoc]
        rfl
      · rw [hq, List.map_cons, List.append_assoc]
        rfl

namespace WordLadderPuzzle

/-- One dequeue step of the breadth-first loop keeps the shared accumulator
duplicate-free and only ever appends fresh vocabulary words to it. -/
theorem bfs_loop_step_inv {V : List Word} {L : Nat} (hV : VocabOK V L)
    {p : WordLadderPuzzle} (hp : Inv p) (hpl : p.start.length = L)
    {acc : List Word} (hacc : acc.Nodup) (haccV : ∀ w ∈ acc, w ∈ V)
    {root : WordLadderPuzzle} {hint : Bool}
    {queue q2 : List (WordLadderPuzzle × Bool)} {acc2 : List Word}
    (h : bfs_process root hint (extensions V (p.add_tried_words acc)) queue acc =
      .inr (q2, acc2)) :
    acc2.Nodup ∧ (∀ w ∈ acc2, w ∈ V) ∧ (∃ new, acc2 = acc ++ new) ∧
      q2.length + acc2.length = queue.length + acc.length +
        2 * (acc2.length - acc.length) := by
  obtain ⟨new, hsub, hacc2, hq2⟩ := bfs_process_inr root hint _ _ _ _ _ h
  obtain ⟨hwords, hnd⟩ := extensions_words_spec hV
    (show Inv (p.add_tried_words acc) from hp)
    (show (p.add_tried_words acc).start.length = L from hpl)
  have hnewnd : (new.map (fun e => e.start)).Nodup :=
    (hsub.map (fun e => e.start)).nodup hnd
  have hnewV : ∀ w ∈ new.map (fun e => e.start), w ∈ V := by
    intro w hw
    rcases List.mem_map.mp hw with ⟨e, he, rfl⟩
    exact (hwords e (hsub.subset he)).1
  have hnewacc : ∀ w ∈ new.map (fun e => e.start), w ∉ acc := by
    intro w hw
    rcases List.mem_map.mp hw with ⟨e, he, rfl⟩
    exact (hwords e (hsub.subset he)).2.1
  refine ⟨?_, ?_, ⟨_, hacc2⟩, ?_⟩
  · rw [hacc2, List.nodup_append]
    exact ⟨hacc, hnewnd, fun a ha hb => hnewacc a hb ha⟩
  · intro w hw
    rw [hacc2] at hw
    rcases List.mem_append.mp hw with hw | hw
    · exact haccV w hw
    · exact hnewV w hw
  · rw [hacc2, hq2]
    simp [List.length_append]
    omega

/-- The breadth-first loop returns within the stated fuel bound: every
iteration either consumes a queue entry without enqueuing, or strictly grows
the duplicate-free accumulator of vocabulary words. -/
theorem bfs_loop_some {V : List Word} {L : Nat} (hV : VocabOK V L)
    (root : WordLadderPuzzle) (hint : Bool) :
    ∀ (fuel : Nat) (queue : List (WordLadderPuzzle × Bool)) (acc : List Word),
      acc.Nodup → (∀ w ∈ acc, w ∈ V) →
      (∀ q ∈ queue, Inv q.1 ∧ q.1.start.length = L ∧ q.2 = true) →
      2 * (V.length - acc.length) + queue.length < fuel →
      bfs_loop V root hint fuel queue acc ≠ none := by
  intro fuel
  induction fuel with
  | zero => omega
  | succ f ih =>
    intro queue acc hacc haccV hqinv hfuel
    match queue with
    | [] => simp [bfs_loop]
    | (p, touched) :: rest =>
      obtain ⟨hp, hpl, htouched⟩ := hqinv (p, touched) (List.mem_cons_self _ _)
      subst htouched
      rw [bfs_loop]
      simp only [if_pos rfl]
      match hpr : bfs_process root hint
          (extensions V (p.add_tried_words acc)) rest acc with
      | .inl out => simp
      | .inr (q2, acc2) =>
        obtain ⟨hnd2, hV2, ⟨new, hnew⟩, hlen2⟩ :=
          bfs_loop_step_inv hV hp hpl hacc haccV hpr
        simp only []
        apply ih q2 acc2 hnd2 hV2
        · intro q hq
          obtain ⟨new2, hsub, _, hq2⟩ := bfs_process_inr root hint _ _ _ _ _ hpr
          rw [hq2] at hq
          rcases List.mem_append.mp hq with hq | hq
          · exact hqinv q (List.mem_cons_of_mem _ hq)
          · rcases List.mem_map.mp hq with ⟨e, he, rfl⟩
            have := (extensions_words_spec hV
              (show Inv (p.add_tried_words acc) from hp)
              (show (p.add_tried_words acc).start.length = L from hpl)).1 e
              (hsub.subset he)
            exact ⟨this.2.2.1, this.2.2.2, rfl⟩
        · have hacclen : acc2.length ≤ V.length :=
            nodup_subset_length_le hnd2 (fun w hw => hV2 w hw)
          have haccgrow : acc.length ≤ acc2.length := by
            rw [hnew]
            simp
          have hqcons : ((p, true) :: rest).length = rest.length + 1 := rfl
          omega

/-- Fuel `2 * |V| + 2` always suffices for `solve_in_breadth`: the search
terminates on every finite vocabulary. -/
theorem solve_in_breadth_some {V : List Word} {L : Nat} (hV : VocabOK V L)
    (root : WordLadderPuzzle) (hroot : Inv root)
    (hrl : root.start.length = L) (hint : Bool) :
    solve_in_breadth V (2 * V.length + 2) root hint ≠ none := by
  unfold solve_in_breadth
  have h2 : 2 * V.length + 2 = (2 * V.length + 1) + 1 := rfl
  rw [h2, bfs_loop]
  simp only [Bool.false_eq_true, if_false]
  match hpr : bfs_process root hint (extensions V root) [] [] with
  | .inl out => simp
  | .inr (q2, acc2) =>
    simp only []
    obtain ⟨new, hsub, hacc2, hq2⟩ := bfs_process_inr root hint _ _ _ _ _ hpr
    obtain ⟨hwords, hnd⟩ := extensions_words_spec hV hroot hrl
    have hnewnd : (new.map (fun e => e.start)).Nodup :=
      (hsub.map (fun e => e.start)).nodup hnd
    apply bfs_loop_some hV root hint (2 * V.length + 1) q2 acc2
    · rw [hacc2]
      simpa using hnewnd
    · intro w hw
      rw [hacc2] at hw
      simp only [List.nil_append] at hw
      rcases List.mem_map.mp hw with ⟨e, he, rfl⟩
      exact (hwords e (hsub.subset he)).1
    · intro q hq
      rw [hq2] at hq
      simp only [List.nil_append] at hq
      rcases List.mem_map.mp hq with ⟨e, he, rfl⟩
      have := hwords e (hsub.subset he)
      exact ⟨this.2.2.1, this.2.2.2, rfl⟩
    · have hacclen : acc2.length ≤ V.length := by
        apply nodup_subset_length_le
        · rw [hacc2]
          simpa using hnewnd
        · intro w hw
          rw [hacc2] at hw
          simp only [List.nil_append] at hw
          rcases List.mem_map.mp hw with ⟨e, he, rfl⟩
          exact (hwords e (hsub.subset he)).1
      have hq2len : q2.length = acc2.length := by
        rw [hacc2, hq2]
        simp
      omega

end WordLadderPuzzle

theorem mem_pyRange {s t a : Nat} : a ∈ pyRange s t ↔ s ≤ a ∧ a < t := by
  unfold pyRange
  rw [List.mem_map]
  constructor
  · intro ⟨k, hk, hka⟩
    rw [List.mem_range] at hk
    omega
  · intro ⟨h1, h2⟩
    exact ⟨a - s, List.mem_range.mpr (by omega), by omega⟩

theorem range_find?_eq_some {N k0 : Nat} {p : Nat → Bool} (hk : k0 < N)
    (hp : p k0 = true) (hprev : ∀ j, j < k0 → p j = false) :
    (List.range N).find? p = some k0 := by
  induction N with
  | zero => omega
  | succ N ih =>
    rw [List.range_succ, List.find?_append]
    rcases Nat.lt_or_ge k0 N with h | h
    · rw [ih h]
      rfl
    · have hk0 : k0 = N := by omega
      subst hk0
      have hnone : (List.range k0).find? p = none := by
        rw [List.find?_eq_none]
        intro x hx
        rw [hprev x (List.mem_range.mp hx)]
        simp
      rw [hnone]
      simp [List.find?, hp]

namespace SudokuPuzzle

theorem pyRangeStep_sq {m : Nat} (hm0 : 0 < m) :
    pyRangeStep 0 (m * m) m = (List.range m).map (fun k => 0 + k * m) := by
  unfold pyRangeStep
  congr 1
  have he : m * m - 0 + m - 1 = m * m + (m - 1) := by omega
  rw [he, Nat.mul_add_div hm0, Nat.div_eq_of_lt (by omega)]
  simp

theorem pyRangeStep_find {m x : Nat} (hm0 : 0 < m) (hx : x < m * m) :
    (pyRangeStep 0 (m * m) m).find?
        (fun r => decide (x ∈ pyRange r (r + m))) = some (x / m * m) := by
  rw [pyRangeStep_sq hm0, List.find?_map]
  have hfind : (List.range m).find?
      ((fun r => decide (x ∈ pyRange r (r + m))) ∘ (fun k => 0 + k * m)) =
      some (x / m) := by
    apply range_find?_eq_some
    · rw [Nat.div_lt_iff_lt_mul hm0]
      exact hx
    · simp only [Function.comp_apply, decide_eq_true_eq, mem_pyRange]
      have h1 := Nat.div_mul_le_self x m
      have h2 := Nat.div_add_mod x m
      have h3 := Nat.mod_lt x hm0
      have h4 : x / m * m = m * (x / m) := Nat.mul_comm _ _
      omega
    · intro j hj
      simp only [Function.comp_apply, decide_eq_false_iff_not, mem_pyRange]
      intro ⟨hc1, hc2⟩
      have h5 : (j + 1) * m ≤ x / m * m :=
        Nat.mul_le_mul_right m (Nat.succ_le_of_lt hj)
      have h1 := Nat.div_mul_le_self x m
      have h6 : (j + 1) * m = j * m + m := by ring
      omega
  rw [hfind]
  simp

/-- On a grid of admissible size, `_find_subsquare` locates the subsquare
corner by integer division. -/
theorem find_subsquare_eq {ng ri ci m : Nat} (hmm : m * m = ng) (hm0 : 0 < m)
    (hsq : intSqrt ng = m) (hri : ri < ng) (hci : ci < ng) :
    find_subsquare ng ri ci = some (ri / m * m, ci / m * m, m) := by
  subst hmm
  have h1 := pyRangeStep_find hm0 hri
  have h2 := pyRangeStep_find hm0 hci
  simp only [find_subsquare, hsq, h1, h2]

theorem sizeOK_sqrt {g : Grid} (h : SizeOK g) :
    0 < intSqrt (n g) ∧ intSqrt (n g) * intSqrt (n g) = n g := by
  rcases h with h | h | h | h <;> (rw [n, h]; exact ⟨by decide, by decide⟩)

end SudokuPuzzle

theorem pyRange_zero (t : Nat) : pyRange 0 t = List.range t := by
  unfold pyRange
  simp

namespace SudokuPuzzle

theorem foldl_append_ite {α : Type} (q : α → Prop) [DecidablePred q] (x : Char) :
    ∀ (l : List α) (a0 : List Char),
      l.foldl (fun a i => if q i then a ++ [x] else a) a0 =
        a0 ++ (l.filter (fun i => decide (q i))).map (fun _ => x)
  | [], a0 => by simp
  | i :: t, a0 => by
    rw [List.foldl_cons, List.filter_cons]
    by_cases h : q i
    · rw [if_pos h, if_pos (by simpa using h), List.map_cons,
        foldl_append_ite q x t (a0 ++ [x])]
      simp
    · rw [if_neg h, if_neg (by simpa using h), foldl_append_ite q x t a0]

theorem foldl_guard_of_mem {α : Type} (q : α → Prop) [DecidablePred q] (x : Char) :
    ∀ (l : List α) (a0 : List Char), x ∈ a0 →
      l.foldl (fun a p => if q p ∧ x ∉ a then a ++ [x] else a) a0 = a0
  | [], _, _ => rfl
  | p :: t, a0, hx => by
    rw [List.foldl_cons, if_neg (fun hcon => hcon.2 hx)]
    exact foldl_guard_of_mem q x t a0 hx

theorem foldl_guard_mem {α : Type} (q : α → Prop) [DecidablePred q] (x : Char) :
    ∀ (l : List α) (a0 : List Char), x ∉ a0 →
      l.foldl (fun a p => if q p ∧ x ∉ a then a ++ [x] else a) a0 =
        a0 ++ (if ∃ p ∈ l, q p then [x] else [])
  | [], a0, _ => by simp
  | p :: t, a0, hx => by
    rw [List.foldl_cons]
    by_cases hq : q p
    · rw [if_pos ⟨hq, hx⟩,
        foldl_guard_of_mem q x t (a0 ++ [x]) (List.mem_append_right _ (List.mem_cons_self _ _)),
        if_pos ⟨p, List.mem_cons_self _ _, hq⟩]
    · rw [if_neg (fun hcon => hq hcon.1), foldl_guard_mem q x t a0 hx]
      congr 1
      by_cases he : ∃ r ∈ t, q r
      · rcases he with ⟨r, hr, hqr⟩
        rw [if_pos ⟨r, hr, hqr⟩, if_pos ⟨r, List.mem_cons_of_mem _ hr, hqr⟩]
      · rw [if_neg he, if_neg (fun hcon => by
          rcases hcon with ⟨r, hr, hqr⟩
          rcases List.mem_cons.mp hr with rfl | hr2
          · exact hq hqr
          · exact he ⟨r, hr2, hqr⟩)]

theorem foldl_foldl_flat {α β γ : Type} (F : γ → α × β → γ) :
    ∀ (l1 : List α) (l2 : List β) (a0 : γ),
      l1.foldl (fun a j => l2.foldl (fun a k => F a (j, k)) a) a0 =
        (l1.flatMap (fun j => l2.map (fun k => (j, k)))).foldl F a0
  | [], _, a0 => rfl
  | j :: t, l2, a0 => by
    rw [List.foldl_cons, List.flatMap_cons, List.foldl_append, List.foldl_map]
    exact foldl_foldl_flat F t l2 _

theorem countP_eq_count_filterMap {α β : Type} [DecidableEq β] (f : α → Option β)
    (b : β) : ∀ l : List α,
      l.countP (fun a => decide (f a = some b)) = (l.filterMap f).count b
  | [] => rfl
  | a :: t => by
    rw [List.countP_cons, List.filterMap_cons]
    have ih := countP_eq_count_filterMap f b t
    cases hfa : f a with
    | none =>
      rw [ih]
      simp
    | some c =>
      rw [ih]
      by_cases hc : c = b
      · subst hc
        simp [List.count_cons]
      · simp [hc, List.count_cons]

theorem mem_rowLetters {g : Grid} {i : Nat} {L : Char} :
    L ∈ rowLetters g i ↔ some L ∈ g.getD i [] := by
  unfold rowLetters
  rw [List.mem_filterMap]
  constructor
  · intro ⟨a, ha, hid⟩
    simp only [id_eq] at hid
    subst hid
    exact ha
  · intro h
    exact ⟨some L, h, rfl⟩

theorem mem_colLetters {g : Grid} {j : Nat} {L : Char} :
    L ∈ colLetters g j ↔ ∃ i, i < n g ∧ cellAt g i j = some L := by
  unfold colLetters
  rw [List.mem_filterMap]
  constructor
  · intro ⟨i, hi, hc⟩
    exact ⟨i, List.mem_range.mp hi, hc⟩
  · intro ⟨i, hi, hc⟩
    exact ⟨i, List.mem_range.mpr hi, hc⟩

theorem mem_blockLetters {g : Grid} {r c m : Nat} {L : Char} :
    L ∈ blockLetters g r c m ↔
      ∃ p ∈ (List.range m).flatMap (fun i => (List.range m).map (fun j => (i, j))),
        cellAt g (r + p.1) (c + p.2) = some L := by
  unfold blockLetters blockCells
  rw [List.filterMap_map, List.mem_filterMap]
  constructor
  · intro ⟨p, hp, hc⟩
    exact ⟨p, hp, hc⟩
  · intro ⟨p, hp, hc⟩
    exact ⟨p, hp, hc⟩

end SudokuPuzzle

namespace SudokuPuzzle

/-- On a column without repeated letters, one `delete_letters` iteration
appends the candidate letter exactly when it conflicts with the row, the
column, or the subsquare. -/
theorem deleteStep_eq (g : Grid) (ri ci r c m : Nat) (L : Char)
    (hcol : (colLetters g ci).Nodup) (dl : List Char) (hL : L ∉ dl) :
    deleteStep g ri ci r c m dl L =
      dl ++ (if L ∈ rowLetters g ri ∨ L ∈ colLetters g ci ∨
        L ∈ blockLetters g r c m then [L] else []) := by
  unfold deleteStep
  by_cases hrow : some L ∈ g.getD ri []
  · rw [if_pos hrow, if_pos (Or.inl (mem_rowLetters.mpr hrow))]
  · rw [if_neg hrow]
    have hrowL : L ∉ rowLetters g ri := fun hc => hrow (mem_rowLetters.mp hc)
    have hcolfold : (List.range (n g)).foldl
        (fun a i => if cellAt g i ci = some L then a ++ [L] else a) dl =
        dl ++ (if L ∈ colLetters g ci then [L] else []) := by
      rw [foldl_append_ite (fun i => cellAt g i ci = some L) L]
      congr 1
      have hcnt : (List.range (n g)).countP
          (fun i => decide (cellAt g i ci = some L)) = (colLetters g ci).count L :=
        countP_eq_count_filterMap (fun i => cellAt g i ci) L (List.range (n g))
      rw [List.countP_eq_length_filter] at hcnt
      by_cases hc : L ∈ colLetters g ci
      · rw [if_pos hc]
        have hge : 0 < (colLetters g ci).count L := List.count_pos_iff.mpr hc
        have hle := List.nodup_iff_count_le_one.mp hcol L
        have hone : (List.filter (fun i => decide (cellAt g i ci = some L))
            (List.range (n g))).length = 1 := by omega
        rcases List.length_eq_one.mp hone with ⟨a, ha⟩
        rw [ha]
        rfl
      · rw [if_neg hc]
        have h0 : (colLetters g ci).count L = 0 := by
          rw [List.count_eq_zero]
          exact hc
        have hz : (List.filter (fun i => decide (cellAt g i ci = some L))
            (List.range (n g))).length = 0 := by omega
        rw [List.length_eq_zero.mp hz]
        rfl
    rw [hcolfold]
    rw [foldl_foldl_flat (fun a (p : Nat × Nat) =>
      if cellAt g (r + p.1) (c + p.2) = some L ∧ L ∉ a then a ++ [L] else a)]
    by_cases hc : L ∈ colLetters g ci
    · rw [if_pos hc]
      rw [foldl_guard_of_mem (fun p : Nat × Nat => cellAt g (r + p.1) (c + p.2) = some L) L _ _
        (List.mem_append_right _ (List.mem_cons_self _ _))]
      rw [if_pos (Or.inr (Or.inl hc))]
    · rw [if_neg hc, List.append_nil]
      rw [foldl_guard_mem (fun p : Nat × Nat => cellAt g (r + p.1) (c + p.2) = some L) L _ _ hL]
      congr 1
      rw [pyRange_zero]
      by_cases hb : L ∈ blockLetters g r c m
      · rw [if_pos (mem_blockLetters.mp hb), if_pos (Or.inr (Or.inr hb))]
      · rw [if_neg (fun hcon => hb (mem_blockLetters.mpr hcon)),
          if_neg (fun hcon => by
            rcases hcon with h | h | h
            · exact hrowL h
            · exact hc h
            · exact hb h)]

end SudokuPuzzle

namespace SudokuPuzzle

theorem dels_eq (g : Grid) (ri ci r c m : Nat)
    (hcol : (colLetters g ci).Nodup) :
    ∀ (lts dl : List Char), lts.Nodup → (∀ L ∈ lts, L ∉ dl) →
      lts.foldl (deleteStep g ri ci r c m) dl =
        dl ++ lts.filter (fun L => decide (L ∈ rowLetters g ri ∨
          L ∈ colLetters g ci ∨ L ∈ blockLetters g r c m))
  | [], dl, _, _ => by simp
  | L :: t, dl, hnd, hdl => by
    rw [List.foldl_cons,
      deleteStep_eq g ri ci r c m L hcol dl (hdl L (List.mem_cons_self _ _)),
      List.filter_cons]
    by_cases hcf : L ∈ rowLetters g ri ∨ L ∈ colLetters g ci ∨
        L ∈ blockLetters g r c m
    · rw [if_pos hcf, if_pos (by simpa using hcf)]
      rw [dels_eq g ri ci r c m hcol t (dl ++ [L]) (List.nodup_cons.mp hnd).2
        (fun x hx => by
          rw [List.mem_append, List.mem_singleton]
          intro hcon
          rcases hcon with h | h
          · exact hdl x (List.mem_cons_of_mem _ hx) h
          · exact (List.nodup_cons.mp hnd).1 (h ▸ hx))]
      simp
    · rw [if_neg hcf, if_neg (by simpa using hcf), List.append_nil]
      exact dels_eq g ri ci r c m hcol t dl (List.nodup_cons.mp hnd).2
        (fun x hx => hdl x (List.mem_cons_of_mem _ hx))

theorem foldlM_pyRemove :
    ∀ (ds p : List Char), ds.Nodup → (∀ d ∈ ds, d ∈ p) → p.Nodup →
      ds.foldlM pyRemove p = .ok (p.filter (fun a => decide (a ∉ ds)))
  | [], p, _, _, _ => by
    rw [List.foldlM_nil]
    have : p.filter (fun a => decide (a ∉ ([] : List Char))) = p := by
      apply List.filter_eq_self.mpr
      intro a _
      simp
    rw [this]
    rfl
  | d :: t, p, hnd, hds, hp => by
    rw [List.foldlM_cons]
    rw [show pyRemove p d = Except.ok (p.erase d) from
      if_pos (hds d (List.mem_cons_self _ _))]
    have herase : p.erase d = p.filter (fun x => x != d) := hp.erase_eq_filter d
    have hbind : (Except.ok (p.erase d) >>= fun init =>
        t.foldlM pyRemove init) = t.foldlM pyRemove (p.erase d) := rfl
    rw [hbind, herase]
    rw [foldlM_pyRemove t (p.filter (fun x => x != d)) (List.nodup_cons.mp hnd).2
      (fun x hx => List.mem_filter.mpr ⟨hds x (List.mem_cons_of_mem _ hx),
        bne_iff_ne.mpr (fun hxd => (List.nodup_cons.mp hnd).1 (hxd ▸ hx))⟩)
      (hp.filter _)]
    rw [List.filter_filter]
    congr 1
    apply List.filter_congr
    intro x _
    by_cases hxd : x = d
    · subst hxd
      simp
    · by_cases hxt : x ∈ t
      · simp [hxd, hxt]
      · simp [hxd, hxt]

end SudokuPuzzle

namespace SudokuPuzzle

theorem CHARS_nodup : CHARS.Nodup := by decide

theorem CHARS_take_nodup (k : Nat) : (CHARS.take k).Nodup :=
  List.Nodup.sublist (List.take_sublist _ _) CHARS_nodup

/-- On a conflict-free column, `_possible_letters` succeeds and returns
exactly the spec-side candidate letters. -/
theorem possible_letters_eq (g : Grid) (ri ci : Nat) (hsz : SizeOK g)
    (hcol : (colLetters g ci).Nodup) (hri : ri < n g) (hci : ci < n g) :
    possible_letters g ri ci = .ok (candidates g ri ci) := by
  obtain ⟨hm0, hmm⟩ := sizeOK_sqrt hsz
  simp only [possible_letters, find_subsquare_eq hmm hm0 rfl hri hci]
  rw [dels_eq g ri ci _ _ _ hcol (CHARS.take (n g)) [] (CHARS_take_nodup _)
    (fun L _ hc => (List.not_mem_nil L) hc)]
  rw [List.nil_append]
  rw [foldlM_pyRemove _ _ ((CHARS_take_nodup _).filter _)
    (fun d hd => (List.mem_filter.mp hd).1) (CHARS_take_nodup _)]
  congr 1
  simp only [candidates]
  apply List.filter_congr
  intro L hL
  apply decide_eq_decide.mpr
  rw [List.mem_filter]
  constructor
  · intro hnot
    refine ⟨?_, ?_, ?_⟩
    · intro hc
      exact hnot ⟨hL, decide_eq_true_eq.mpr (Or.inl hc)⟩
    · intro hc
      exact hnot ⟨hL, decide_eq_true_eq.mpr (Or.inr (Or.inl hc))⟩
    · intro hc
      exact hnot ⟨hL, decide_eq_true_eq.mpr (Or.inr (Or.inr hc))⟩
  · intro ⟨h1, h2, h3⟩ ⟨_, hdec⟩
    rcases decide_eq_true_eq.mp hdec with h | h | h
    · exact h1 h
    · exact h2 h
    · exact h3 h

end SudokuPuzzle

theorem findIdx_getD_true {α : Type} (p : α → Bool) (l : List α) (d : α)
    (h : List.findIdx p l < l.length) : p (l.getD (List.findIdx p l) d) = true := by
  rw [List.getD_eq_getElem l d h]
  exact @List.findIdx_getElem _ p l h

theorem findIdx_getD_false {α : Type} (p : α → Bool) (l : List α) (d : α)
    {j : Nat} (hj : j < List.findIdx p l) (hl : j < l.length) :
    p (l.getD j d) = false := by
  rw [List.getD_eq_getElem l d hl]
  exact List.not_of_lt_findIdx hj

namespace SudokuPuzzle

theorem firstEmptyCell_spec {g : Grid} {ri ci : Nat} (hwf : WF g)
    (h : firstEmptyCell g = some (ri, ci)) :
    ri < n g ∧ ci < n g ∧ cellAt g ri ci = none ∧
      (∀ j, j < ci → cellAt g ri j ≠ none) ∧
      (∀ i, i < ri → none ∉ g.getD i []) := by
  unfold firstEmptyCell at h
  cases hf : g.findIdx? (fun row => decide (none ∈ row)) with
  | none =>
    rw [hf] at h
    cases h
  | some i =>
    rw [hf] at h
    have hpair : i = ri ∧
        (g.getD i []).findIdx (fun cell => decide (cell = none)) = ci := by
      cases h
      exact ⟨rfl, rfl⟩
    obtain ⟨rfl, hci⟩ := hpair
    obtain ⟨hilen, hidx⟩ := List.findIdx?_eq_some_iff_findIdx_eq.mp hf
    have hrowlen : (g.getD i []).length = n g := by
      rw [List.getD_eq_getElem g [] hilen]
      exact hwf g[i] (List.getElem_mem hilen)
    have hmem : (fun row => decide ((none : Cell) ∈ row)) (g.getD i []) = true := by
      have := findIdx_getD_true (fun row => decide ((none : Cell) ∈ row)) g []
        (by rw [hidx]; exact hilen)
      rwa [hidx] at this
    have hmem2 : (none : Cell) ∈ g.getD i [] := by
      simpa using hmem
    have hcilen : ci < (g.getD i []).length := by
      rw [← hci]
      apply List.findIdx_lt_length_of_exists
      exact ⟨none, hmem2, by simp⟩
    have hcell : cellAt g i ci = none := by
      have := findIdx_getD_true (fun cell => decide (cell = (none : Cell)))
        (g.getD i []) none (hci ▸ hcilen)
      rw [hci] at this
      simpa [cellAt] using this
    refine ⟨hilen, by omega, hcell, ?_, ?_⟩
    · intro j hj
      have := findIdx_getD_false (fun cell => decide (cell = (none : Cell)))
        (g.getD i []) none (hci ▸ hj) (by omega)
      simpa [cellAt] using this
    · intro k hk
      have := findIdx_getD_false (fun row => decide ((none : Cell) ∈ row)) g []
        (hidx ▸ hk) (by omega)
      simpa using this

end SudokuPuzzle

namespace SudokuPuzzle

/-- `extensions` on a well-formed, conflict-free grid: an empty list when the
grid is full, otherwise exactly one successor per candidate letter of the
first empty cell. -/
theorem extensions_eq {g : Grid} (hwf : WF g) (hsz : SizeOK g) (hgood : Good g) :
    (firstEmptyCell g = none → extensions g = .ok []) ∧
    ∀ ri ci, firstEmptyCell g = some (ri, ci) →
      extensions g = .ok ((candidates g ri ci).map (fun L => extend g L ri ci)) := by
  constructor
  · intro h
    unfold extensions
    rw [h]
  · intro ri ci h
    obtain ⟨hri, hci, _, _, _⟩ := firstEmptyCell_spec hwf h
    have hcol : (colLetters g ci).Nodup := hgood.2.1 ci (List.mem_range.mpr hci)
    unfold extensions
    rw [h]
    show Except.map _ (possible_letters g ri ci) = _
    rw [possible_letters_eq g ri ci hsz hcol hri hci]
    rfl

/-- The candidate letters are listed in strictly increasing alphabetical
order. -/
theorem candidates_sorted (g : Grid) (ri ci : Nat) :
    (candidates g ri ci).Pairwise (· < ·) := by
  apply List.Pairwise.sublist (List.filter_sublist _)
  apply List.Pairwise.sublist (List.take_sublist _ _)
  decide

end SudokuPuzzle

theorem filterMap_update_perm {α : Type} [DecidableEq α] {f : α → Option Char}
    {j : α} {L : Char} :
    ∀ {l : List α}, j ∈ l → l.Nodup → f j = none →
      (l.filterMap (fun x => if x = j then some L else f x)).Perm
        (L :: l.filterMap f)
  | [], hj, _, _ => absurd hj (List.not_mem_nil j)
  | a :: t, hj, hnd, hfj => by
    rcases List.mem_cons.mp hj with heq | hjt
    · subst heq
      rw [List.filterMap_cons, List.filterMap_cons, if_pos rfl, hfj]
      have ht : t.filterMap (fun x => if x = j then some L else f x) =
          t.filterMap f := by
        apply List.filterMap_congr
        intro x hx
        have hxj : ¬ x = j := fun hxa =>
          (List.nodup_cons.mp hnd).1 (show j ∈ t from hxa ▸ hx)
        rw [if_neg hxj]
      rw [ht]
    · have hane : a ≠ j := fun haj =>
        (List.nodup_cons.mp hnd).1 (show a ∈ t from haj ▸ hjt)
      rw [List.filterMap_cons, List.filterMap_cons, if_neg hane]
      have ih := @filterMap_update_perm _ _ f j L t hjt (List.nodup_cons.mp hnd).2 hfj
      cases hfa : f a with
      | none => exact ih
      | some b =>
        exact (ih.cons b).trans (List.Perm.swap L b _)

namespace SudokuPuzzle

theorem getD_set_cell {l : List Cell} {k : Nat} {x : Cell} (i : Nat) :
    (l.set k x).getD i none = if i = k ∧ k < l.length then x else l.getD i none := by
  rw [List.getD_eq_getElem?_getD, List.getD_eq_getElem?_getD, List.getElem?_set]
  by_cases hik : k = i
  · subst hik
    by_cases hk : k < l.length
    · simp [hk]
    · rw [if_pos rfl, if_neg hk, if_neg (fun hc => hk hc.2)]
      rw [List.getElem?_eq_none (by omega)]
  · rw [if_neg hik, if_neg (fun hc => hik hc.1.symm)]

theorem getD_set_row {g : Grid} {k : Nat} {row : List Cell} (i : Nat) :
    (g.set k row).getD i [] = if i = k ∧ k < g.length then row else g.getD i [] := by
  rw [List.getD_eq_getElem?_getD, List.getD_eq_getElem?_getD, List.getElem?_set]
  by_cases hik : k = i
  · subst hik
    by_cases hk : k < g.length
    · simp [hk]
    · rw [if_pos rfl, if_neg hk, if_neg (fun hc => hk hc.2)]
      rw [List.getElem?_eq_none (by omega)]
  · rw [if_neg hik, if_neg (fun hc => hik hc.1.symm)]

theorem n_extend (g : Grid) (L : Char) (ri ci : Nat) :
    n (extend g L ri ci) = n g := by
  unfold n extend
  exact List.length_set g ri _

theorem wf_extend {g : Grid} (hwf : WF g) (L : Char) {ri : Nat}
    (hri : ri < n g) (ci : Nat) : WF (extend g L ri ci) := by
  intro row hrow
  have hlen : (extend g L ri ci).length = g.length := List.length_set g ri _
  rw [hlen]
  unfold extend at hrow
  rcases List.mem_or_eq_of_mem_set hrow with h | h
  · exact hwf row h
  · rw [h, List.length_set]
    exact hwf (g.getD ri []) (by
      rw [List.getD_eq_getElem g [] hri]
      exact List.getElem_mem hri)


theorem cellAt_extend {g : Grid} (hwf : WF g) {ri ci : Nat} (hri : ri < n g)
    (hci : ci < n g) (L : Char) (i j : Nat) :
    cellAt (extend g L ri ci) i j =
      if i = ri ∧ j = ci then some L else cellAt g i j := by
  unfold cellAt extend
  rw [getD_set_row i]
  by_cases hiri : i = ri
  · subst hiri
    rw [if_pos ⟨rfl, hri⟩]
    rw [getD_set_cell j]
    have hrowlen : (g.getD i []).length = n g := by
      rw [List.getD_eq_getElem g [] hri]
      exact hwf g[i] (List.getElem_mem hri)
    by_cases hjci : j = ci
    · subst hjci
      rw [if_pos ⟨rfl, by omega⟩, if_pos ⟨rfl, rfl⟩]
    · rw [if_neg (fun hc => hjci hc.1), if_neg (fun hc => hjci hc.2)]
  · rw [if_neg (fun hc => hiri hc.1), if_neg (fun hc => hiri hc.1)]

theorem filterMap_id_eq_range (l : List Cell) :
    l.filterMap id = (List.range l.length).filterMap (fun j => l.getD j none) := by
  have hmap : (List.range l.length).map (fun j => l.getD j none) = l := by
    apply List.ext_getElem
    · simp
    · intro k h1 h2
      simp only [List.getElem_map, List.getElem_range]
      exact List.getD_eq_getElem l none h2
  conv_lhs => rw [← hmap]
  rw [List.filterMap_map]
  rfl

theorem rowLetters_eq_range {g : Grid} (hwf : WF g) {i : Nat} (hi : i < n g) :
    rowLetters g i = (List.range (n g)).filterMap (fun j => cellAt g i j) := by
  unfold rowLetters
  rw [filterMap_id_eq_range]
  have hrl : (g.getD i []).length = n g := by
    rw [List.getD_eq_getElem g [] hi]
    exact hwf g[i] (List.getElem_mem hi)
  rw [hrl]
  rfl

theorem rowLetters_extend_ne {g : Grid} {ri ci : Nat} (L : Char) {i : Nat}
    (hne : i ≠ ri) : rowLetters (extend g L ri ci) i = rowLetters g i := by
  unfold rowLetters extend
  rw [getD_set_row i, if_neg (fun hc => hne hc.1)]

theorem rowLetters_extend_eq {g : Grid} (hwf : WF g) {ri ci : Nat}
    (hri : ri < n g) (hci : ci < n g) (hcell : cellAt g ri ci = none) (L : Char) :
    (rowLetters (extend g L ri ci) ri).Perm (L :: rowLetters g ri) := by
  rw [rowLetters_eq_range (wf_extend hwf L hri ci)
    (show ri < n (extend g L ri ci) from by rw [n_extend]; exact hri)]
  rw [rowLetters_eq_range hwf hri, n_extend]
  have hcongr : (List.range (n g)).filterMap
      (fun j => cellAt (extend g L ri ci) ri j) =
    (List.range (n g)).filterMap (fun j => if j = ci then some L
      else cellAt g ri j) := by
    apply List.filterMap_congr
    intro j hj
    rw [cellAt_extend hwf hri hci L ri j]
    by_cases hjc : j = ci
    · rw [if_pos ⟨rfl, hjc⟩, if_pos hjc]
    · rw [if_neg (fun hc => hjc hc.2), if_neg hjc]
  rw [hcongr]
  exact filterMap_update_perm (List.mem_range.mpr hci) (List.nodup_range _) hcell

theorem colLetters_extend_ne {g : Grid} (hwf : WF g) {ri ci : Nat}
    (hri : ri < n g) (hci : ci < n g) (L : Char) {j : Nat} (hne : j ≠ ci) :
    colLetters (extend g L ri ci) j = colLetters g j := by
  unfold colLetters
  rw [n_extend]
  apply List.filterMap_congr
  intro i hi
  rw [cellAt_extend hwf hri hci L i j, if_neg (fun hc => hne hc.2)]

theorem colLetters_extend_eq {g : Grid} (hwf : WF g) {ri ci : Nat}
    (hri : ri < n g) (hci : ci < n g) (hcell : cellAt g ri ci = none) (L : Char) :
    (colLetters (extend g L ri ci) ci).Perm (L :: colLetters g ci) := by
  unfold colLetters
  rw [n_extend]
  have hcongr : (List.range (n g)).filterMap
      (fun i => cellAt (extend g L ri ci) i ci) =
    (List.range (n g)).filterMap (fun i => if i = ri then some L
      else cellAt g i ci) := by
    apply List.filterMap_congr
    intro i hi
    rw [cellAt_extend hwf hri hci L i ci]
    by_cases hir : i = ri
    · rw [if_pos ⟨hir, rfl⟩, if_pos hir]
    · rw [if_neg (fun hc => hir hc.1), if_neg hir]
  rw [hcongr]
  exact filterMap_update_perm (List.mem_range.mpr hri) (List.nodup_range _) hcell

theorem mem_blockPairs {p : Nat × Nat} {m : Nat} :
    p ∈ (List.range m).flatMap (fun i => (List.range m).map (fun j => (i, j))) ↔
      p.1 < m ∧ p.2 < m := by
  rw [List.mem_flatMap]
  constructor
  · intro ⟨i, hi, hp⟩
    rcases List.mem_map.mp hp with ⟨j, hj, rfl⟩
    exact ⟨List.mem_range.mp hi, List.mem_range.mp hj⟩
  · intro ⟨h1, h2⟩
    exact ⟨p.1, List.mem_range.mpr h1,
      List.mem_map.mpr ⟨p.2, List.mem_range.mpr h2, rfl⟩⟩

theorem blockPairs_nodup (m : Nat) :
    ((List.range m).flatMap (fun i => (List.range m).map (fun j => (i, j)))).Nodup := by
  have h : (List.range m).flatMap (fun i => (List.range m).map (fun j => (i, j))) =
      (List.range m) ×ˢ (List.range m) := rfl
  rw [h]
  exact List.Nodup.product (List.nodup_range m) (List.nodup_range m)

theorem blockLetters_as_filterMap (g : Grid) (r c m : Nat) :
    blockLetters g r c m =
      ((List.range m).flatMap (fun i => (List.range m).map (fun j => (i, j)))).filterMap
        (fun p => cellAt g (r + p.1) (c + p.2)) := by
  unfold blockLetters blockCells
  rw [List.filterMap_map]
  rfl

theorem blockLetters_extend_ne {g : Grid} (hwf : WF g) {ri ci : Nat}
    (hri : ri < n g) (hci : ci < n g) (L : Char) {r c m : Nat}
    (hmiss : ∀ p1 p2, p1 < m → p2 < m → ¬(r + p1 = ri ∧ c + p2 = ci)) :
    blockLetters (extend g L ri ci) r c m = blockLetters g r c m := by
  rw [blockLetters_as_filterMap, blockLetters_as_filterMap]
  apply List.filterMap_congr
  intro p hp
  obtain ⟨h1, h2⟩ := mem_blockPairs.mp hp
  rw [cellAt_extend hwf hri hci L _ _, if_neg (hmiss p.1 p.2 h1 h2)]

theorem blockLetters_extend_eq {g : Grid} (hwf : WF g) {ri ci : Nat}
    (hri : ri < n g) (hci : ci < n g) (hcell : cellAt g ri ci = none) (L : Char)
    {r c m : Nat} (hm : 0 < m) (hr : r = ri / m * m) (hc : c = ci / m * m) :
    (blockLetters (extend g L ri ci) r c m).Perm (L :: blockLetters g r c m) := by
  rw [blockLetters_as_filterMap, blockLetters_as_filterMap]
  have hrle : r ≤ ri := by
    rw [hr]
    exact Nat.div_mul_le_self ri m
  have hcle : c ≤ ci := by
    rw [hc]
    exact Nat.div_mul_le_self ci m
  have hrlt : ri - r < m := by
    have hd := Nat.div_add_mod ri m
    have hmod := Nat.mod_lt ri hm
    have hcomm : ri / m * m = m * (ri / m) := Nat.mul_comm _ _
    omega
  have hclt : ci - c < m := by
    have hd := Nat.div_add_mod ci m
    have hmod := Nat.mod_lt ci hm
    have hcomm : ci / m * m = m * (ci / m) := Nat.mul_comm _ _
    omega
  have hcongr : ((List.range m).flatMap
      (fun i => (List.range m).map (fun j => (i, j)))).filterMap
        (fun p => cellAt (extend g L ri ci) (r + p.1) (c + p.2)) =
    ((List.range m).flatMap (fun i => (List.range m).map (fun j => (i, j)))).filterMap
        (fun p => if p = (ri - r, ci - c) then some L
          else cellAt g (r + p.1) (c + p.2)) := by
    apply List.filterMap_congr
    intro p hp
    obtain ⟨h1, h2⟩ := mem_blockPairs.mp hp
    rw [cellAt_extend hwf hri hci L _ _]
    by_cases hpp : p = (ri - r, ci - c)
    · rw [if_pos hpp, if_pos (by rw [hpp]; constructor <;> (simp; omega))]
    · rw [if_neg ?hneq, if_neg hpp]
      intro ⟨ha, hb⟩
      apply hpp
      have : p.1 = ri - r := by omega
      have : p.2 = ci - c := by omega
      cases p
      simp_all
  rw [hcongr]
  apply filterMap_update_perm
  · exact mem_blockPairs.mpr ⟨by simp; omega, by simp; omega⟩
  · exact blockPairs_nodup m
  · have hre : r + (ri - r) = ri := by omega
    have hce : c + (ci - c) = ci := by omega
    simp only [hre, hce]
    exact hcell

end SudokuPuzzle

namespace SudokuPuzzle

theorem mem_candidates {g : Grid} {ri ci : Nat} {L : Char} :
    L ∈ candidates g ri ci ↔ L ∈ CHARS.take (n g) ∧ L ∉ rowLetters g ri ∧
      L ∉ colLetters g ci ∧
      L ∉ blockLetters g (ri / intSqrt (n g) * intSqrt (n g))
        (ci / intSqrt (n g) * intSqrt (n g)) (intSqrt (n g)) := by
  simp only [candidates, List.mem_filter, decide_eq_true_eq]

theorem mem_pyRangeStep_sq {m r : Nat} (hm : 0 < m) :
    r ∈ pyRangeStep 0 (m * m) m ↔ ∃ k, k < m ∧ r = k * m := by
  rw [pyRangeStep_sq hm, List.mem_map]
  constructor
  · intro ⟨k, hk, hr⟩
    exact ⟨k, List.mem_range.mp hk, by omega⟩
  · intro ⟨k, hk, hr⟩
    exact ⟨k, List.mem_range.mpr hk, by omega⟩

theorem mem_pyRangeStep_ng {m ng r : Nat} (hm : 0 < m) (hmm : m * m = ng) :
    r ∈ pyRangeStep 0 ng m ↔ ∃ k, k < m ∧ r = k * m := by
  subst hmm
  exact mem_pyRangeStep_sq hm

theorem sizeOK_extend {g : Grid} (hsz : SizeOK g) (L : Char) (ri ci : Nat) :
    SizeOK (extend g L ri ci) := by
  unfold SizeOK at *
  have h := n_extend g L ri ci
  unfold n at h
  rw [h]
  exact hsz

/-- Filling the first empty cell with a candidate letter keeps the grid
conflict-free. -/
theorem good_extend {g : Grid} (hwf : WF g) (hsz : SizeOK g) (hgood : Good g)
    {ri ci : Nat} (hfe : firstEmptyCell g = some (ri, ci))
    {L : Char} (hL : L ∈ candidates g ri ci) :
    Good (extend g L ri ci) := by
  obtain ⟨hri, hci, hcell, _, _⟩ := firstEmptyCell_spec hwf hfe
  obtain ⟨hm0, hmm⟩ := sizeOK_sqrt hsz
  obtain ⟨_, hLrow, hLcol, hLblock⟩ := mem_candidates.mp hL
  have hn := n_extend g L ri ci
  have hsq : intSqrt (n (extend g L ri ci)) = intSqrt (n g) := by rw [hn]
  refine ⟨?_, ?_, ?_⟩
  · intro i hi
    rw [hn] at hi
    by_cases hir : i = ri
    · subst hir
      exact ((rowLetters_extend_eq hwf hri hci hcell L).symm.nodup
        (List.nodup_cons.mpr ⟨hLrow, hgood.1 i hi⟩))
    · rw [rowLetters_extend_ne L hir]
      exact hgood.1 i hi
  · intro j hj
    rw [hn] at hj
    by_cases hjc : j = ci
    · subst hjc
      exact ((colLetters_extend_eq hwf hri hci hcell L).symm.nodup
        (List.nodup_cons.mpr ⟨hLcol, hgood.2.1 j hj⟩))
    · rw [colLetters_extend_ne hwf hri hci L hjc]
      exact hgood.2.1 j hj
  · intro r hr c hc
    rw [hn, hsq] at *
    have hrm := (mem_pyRangeStep_ng hm0 hmm).mp hr
    have hcm := (mem_pyRangeStep_ng hm0 hmm).mp hc
    obtain ⟨kr, hkr, rfl⟩ := hrm
    obtain ⟨kc, hkc, rfl⟩ := hcm
    by_cases hblk : kr * intSqrt (n g) = ri / intSqrt (n g) * intSqrt (n g) ∧
        kc * intSqrt (n g) = ci / intSqrt (n g) * intSqrt (n g)
    · rw [hblk.1, hblk.2]
      refine (blockLetters_extend_eq hwf hri hci hcell L hm0 rfl rfl).symm.nodup
        (List.nodup_cons.mpr ⟨hLblock, ?_⟩)
      have hrin : ri / intSqrt (n g) * intSqrt (n g) ∈
          pyRangeStep 0 (n g) (intSqrt (n g)) := by
        apply (mem_pyRangeStep_ng hm0 hmm).mpr
        exact ⟨ri / intSqrt (n g), by
          rw [Nat.div_lt_iff_lt_mul hm0]
          rw [hmm]
          exact hri, rfl⟩
      have hcin : ci / intSqrt (n g) * intSqrt (n g) ∈
          pyRangeStep 0 (n g) (intSqrt (n g)) := by
        apply (mem_pyRangeStep_ng hm0 hmm).mpr
        exact ⟨ci / intSqrt (n g), by
          rw [Nat.div_lt_iff_lt_mul hm0]
          rw [hmm]
          exact hci, rfl⟩
      exact hgood.2.2 _ hrin _ hcin
    · rw [blockLetters_extend_ne hwf hri hci L ?hmiss]
      · exact hgood.2.2 _ hr _ hc
      case hmiss =>
        intro p1 p2 hp1 hp2 ⟨he1, he2⟩
        apply hblk
        have hd1 : ri / intSqrt (n g) = kr :=
          Nat.div_eq_of_lt_le (by omega) (by
            have : (kr + 1) * intSqrt (n g) = kr * intSqrt (n g) + intSqrt (n g) := by
              ring
            omega)
        have hd2 : ci / intSqrt (n g) = kc :=
          Nat.div_eq_of_lt_le (by omega) (by
            have : (kc + 1) * intSqrt (n g) = kc * intSqrt (n g) + intSqrt (n g) := by
              ring
            omega)
        rw [hd1, hd2]
        exact ⟨rfl, rfl⟩

end SudokuPuzzle

namespace SudokuPuzzle

theorem extensions_elem_good {g : Grid} (hwf : WF g) (hsz : SizeOK g)
    (hgood : Good g) {ri ci : Nat} (hfe : firstEmptyCell g = some (ri, ci))
    {e : Grid} (he : e ∈ (candidates g ri ci).map (fun L => extend g L ri ci)) :
    WF e ∧ SizeOK e ∧ Good e := by
  rcases List.mem_map.mp he with ⟨L, hL, rfl⟩
  obtain ⟨hri, _, _, _, _⟩ := firstEmptyCell_spec hwf hfe
  exact ⟨wf_extend hwf L hri ci, sizeOK_extend hsz L ri ci,
    good_extend hwf hsz hgood hfe hL⟩

theorem depthAny_spec (m : Nat)
    (ih : ∀ {g : Grid}, WF g → SizeOK g → Good g →
      ∃ b, solve_in_depth m g = .ok b ∧ (b = true ↔ Solvable g m)) :
    ∀ (l : List Grid), (∀ e ∈ l, WF e ∧ SizeOK e ∧ Good e) →
      ∃ b, depthAny m l = .ok b ∧ (b = true ↔ ∃ e ∈ l, Solvable e m)
  | [], _ => ⟨false, by rw [depthAny], by simp⟩
  | e :: rest, hall => by
    obtain ⟨he1, he2, he3⟩ := hall e (List.mem_cons_self _ _)
    obtain ⟨be, hbe, hbe2⟩ := ih he1 he2 he3
    cases be with
    | true =>
      refine ⟨true, ?_, ?_⟩
      · rw [depthAny, hbe]
        rfl
      · simp only [true_iff]
        exact ⟨e, List.mem_cons_self _ _, hbe2.mp rfl⟩
    | false =>
      obtain ⟨b, hb, hb2⟩ := depthAny_spec m ih rest
        (fun x hx => hall x (List.mem_cons_of_mem _ hx))
      refine ⟨b, ?_, ?_⟩
      · rw [depthAny, hbe]
        show depthAny m rest = Except.ok b
        exact hb
      · rw [hb2]
        constructor
        · intro ⟨x, hx, hsx⟩
          exact ⟨x, List.mem_cons_of_mem _ hx, hsx⟩
        · intro ⟨x, hx, hsx⟩
          rcases List.mem_cons.mp hx with rfl | hx2
          · exact absurd (hbe2.mpr hsx) (by simp)
          · exact ⟨x, hx2, hsx⟩

/-- The bounded feasibility probe `solve_in_depth` decides exactly whether a
solved grid is reachable within the bound. -/
theorem solve_in_depth_spec : ∀ (k : Nat) {g : Grid}, WF g → SizeOK g → Good g →
    ∃ b, solve_in_depth k g = .ok b ∧ (b = true ↔ Solvable g k) := by
  intro k
  induction k with
  | zero =>
    intro g hwf hsz hgood
    by_cases hs : is_solved g = true
    · refine ⟨true, ?_, by simp [Solvable.base g 0 hs]⟩
      rw [solve_in_depth, if_pos hs]
    · refine ⟨false, ?_, ?_⟩
      · rw [solve_in_depth, if_neg hs]
      · constructor
        · intro h
          cases h
        · intro h
          cases h with
          | base _ _ hsol => exact absurd hsol hs
  | succ m ih =>
    intro g hwf hsz hgood
    by_cases hs : is_solved g = true
    · refine ⟨true, ?_, by simp [Solvable.base g (m + 1) hs]⟩
      rw [solve_in_depth, if_pos hs]
    · have hext := extensions_eq hwf hsz hgood
      cases hfe : firstEmptyCell g with
      | none =>
        have hek : extensions g = .ok [] := hext.1 hfe
        refine ⟨false, ?_, ?_⟩
        · rw [solve_in_depth, if_neg hs]
          show (extensions g).bind (fun l => depthAny m l) = Except.ok false
          rw [hek]
          show depthAny m [] = Except.ok false
          rw [depthAny]
        · constructor
          · intro h
            cases h
          · intro h
            cases h with
            | base _ _ hsol => exact absurd hsol hs
            | step _ _ l e hl he hse =>
              rw [hek] at hl
              cases hl
              cases he
      | some pair =>
        obtain ⟨ri, ci⟩ := pair
        have hek := hext.2 ri ci hfe
        obtain ⟨b, hb, hb2⟩ := depthAny_spec m (fun h1 h2 h3 => ih h1 h2 h3)
          ((candidates g ri ci).map (fun L => extend g L ri ci))
          (fun e he => extensions_elem_good hwf hsz hgood hfe he)
        refine ⟨b, ?_, ?_⟩
        · rw [solve_in_depth, if_neg hs]
          show (extensions g).bind (fun l => depthAny m l) = Except.ok b
          rw [hek]
          exact hb
        · rw [hb2]
          constructor
          · intro ⟨e, he, hse⟩
            exact Solvable.step g m _ e hek he hse
          · intro h
            cases h with
            | base _ _ hsol => exact absurd hsol hs
            | step _ _ l e hl he hse =>
              rw [hek] at hl
              cases hl
              exact ⟨e, he, hse⟩

end SudokuPuzzle

namespace SudokuPuzzle

theorem hintLoop_spec (g : Grid) (k : Nat) :
    ∀ (l : List Grid), (∀ e ∈ l, WF e ∧ SizeOK e ∧ Good e) →
      ((∀ e ∈ l, ¬ Solvable e k) → hintLoop g k l = .ok noExtensionsStr) ∧
      (∀ i, (hi : i < l.length) → Solvable (l.get ⟨i, hi⟩) k →
        (∀ j, j < i → ¬ Solvable (l.getD j []) k) →
        hintLoop g k l = generate_strings g (l.get ⟨i, hi⟩))
  | [], _ => by
    refine ⟨fun _ => rfl, ?_⟩
    intro i hi
    simp at hi
  | e :: rest, hall => by
    obtain ⟨he1, he2, he3⟩ := hall e (List.mem_cons_self _ _)
    obtain ⟨be, hbe, hbe2⟩ := solve_in_depth_spec k he1 he2 he3
    obtain ⟨ih1, ih2⟩ := hintLoop_spec g k rest
      (fun x hx => hall x (List.mem_cons_of_mem _ hx))
    constructor
    · intro hnone
      have hbf : be = false := by
        cases be with
        | false => rfl
        | true => exact absurd (hbe2.mp rfl) (hnone e (List.mem_cons_self _ _))
      subst hbf
      show (solve_in_depth k e).bind _ = _
      rw [hbe]
      show hintLoop g k rest = _
      exact ih1 (fun x hx => hnone x (List.mem_cons_of_mem _ hx))
    · intro i hi hsolv hprev
      cases i with
      | zero =>
        have hbt : be = true := hbe2.mpr hsolv
        subst hbt
        show (solve_in_depth k e).bind _ = _
        rw [hbe]
        rfl
      | succ i2 =>
        have hbf : be = false := by
          cases be with
          | false => rfl
          | true =>
            exact absurd (hbe2.mp rfl) (by
              have := hprev 0 (Nat.succ_pos i2)
              simpa using this)
        subst hbf
        show (solve_in_depth k e).bind _ = _
        rw [hbe]
        show hintLoop g k rest = _
        exact ih2 i2 (by simpa using hi) hsolv (fun j hj => by
          have := hprev (j + 1) (by omega)
          simpa using this)

end SudokuPuzzle

namespace SudokuPuzzle

theorem foldl_lastSome {β : Type} (f : Option β → Nat → Option β) {i0 : Nat}
    {v : β} (hfn : ∀ acc i, i ≠ i0 → f acc i = acc)
    (hfv : ∀ acc, f acc i0 = some v) :
    ∀ (l : List Nat), l.Nodup → i0 ∈ l → ∀ acc, l.foldl f acc = some v
  | [], _, hmem => absurd hmem (List.not_mem_nil i0)
  | a :: t, hnd, hmem => by
    intro acc
    rw [List.foldl_cons]
    rcases List.mem_cons.mp hmem with heq | hmemt
    · subst heq
      rw [hfv acc]
      have hne2 : ∀ i ∈ t, i ≠ i0 := fun i hi hia =>
        (List.nodup_cons.mp hnd).1 (hia ▸ hi)
      clear hmem hnd
      induction t with
      | nil => rfl
      | cons b t2 ih =>
        rw [List.foldl_cons, hfn (some v) b (hne2 b (List.mem_cons_self _ _))]
        exact ih (fun i hi => hne2 i (List.mem_cons_of_mem _ hi))
    · have hne : a ≠ i0 := fun haeq =>
        (List.nodup_cons.mp hnd).1 (haeq ▸ hmemt)
      rw [hfn acc a hne]
      exact foldl_lastSome f hfn hfv t (List.nodup_cons.mp hnd).2 hmemt acc

/-- The move rendered between a grid and one of its extensions. -/
theorem generate_strings_extend {g : Grid} (hwf : WF g) (hsz : SizeOK g)
    {ri ci : Nat} (hfe : firstEmptyCell g = some (ri, ci)) (L : Char) :
    generate_strings g (extend g L ri ci) =
      .ok (('(' :: Nat.toDigits 10 ri) ++ (',' :: ' ' :: Nat.toDigits 10 ci) ++
        (')' :: ' ' :: '-' :: '>' :: ' ' :: [L])) := by
  obtain ⟨hri, hci, hcell, _, _⟩ := firstEmptyCell_spec hwf hfe
  have hdiff : ∀ i j, cellAt g i j ≠ cellAt (extend g L ri ci) i j ↔
      (i = ri ∧ j = ci) := by
    intro i j
    rw [cellAt_extend hwf hri hci L i j]
    by_cases hij : i = ri ∧ j = ci
    · rw [if_pos hij]
      obtain ⟨rfl, rfl⟩ := hij
      rw [hcell]
      simp
    · rw [if_neg hij]
      simp [hij]
  have hrfd : ∀ i, i ≠ ri → rowFirstDiff g (extend g L ri ci) i = none := by
    intro i hine
    unfold rowFirstDiff
    rw [show (List.range (n g)).find? (fun j =>
        decide (cellAt g i j ≠ cellAt (extend g L ri ci) i j)) = none from ?_]
    · rfl
    · rw [List.find?_eq_none]
      intro j _
      simp only [decide_eq_true_eq, hdiff i j]
      intro ⟨h1, _⟩
      exact hine h1
  have hrfd2 : rowFirstDiff g (extend g L ri ci) ri = some (ci, some L) := by
    unfold rowFirstDiff
    rw [show (List.range (n g)).find? (fun j =>
        decide (cellAt g ri j ≠ cellAt (extend g L ri ci) ri j)) = some ci from ?_]
    · show some (ci, cellAt (extend g L ri ci) ri ci) = some (ci, some L)
      rw [show cellAt (extend g L ri ci) ri ci = some L from by
        rw [cellAt_extend hwf hri hci L ri ci, if_pos ⟨rfl, rfl⟩]]
    · apply range_find?_eq_some hci
      · simp only [decide_eq_true_eq, hdiff ri ci]
        trivial
      · intro j hj
        simp only [decide_eq_false_iff_not, hdiff ri j]
        intro ⟨_, h2⟩
        omega
  unfold generate_strings
  rw [foldl_lastSome (fun acc i =>
      match rowFirstDiff g (extend g L ri ci) i with
      | some (j, ch) => some (i, j, ch)
      | none => acc)
    (fun acc i hine => by
      show (match rowFirstDiff g (extend g L ri ci) i with
        | some (j, ch) => some (i, j, ch)
        | none => acc) = acc
      rw [hrfd i hine])
    (fun acc => by
      show (match rowFirstDiff g (extend g L ri ci) ri with
        | some (j, ch) => some (ri, j, ch)
        | none => acc) = some (ri, ci, some L)
      rw [hrfd2])
    (List.range (n g)) (List.nodup_range _) (List.mem_range.mpr hri) none]

end SudokuPuzzle

namespace SudokuPuzzle

theorem toDigits_single {k : Nat} (hk : k ≤ 9) :
    Nat.toDigits 10 k = [Char.ofNat (k + 48)] := by
  interval_cases k <;> decide

theorem pyIntOfChar_digit {k : Nat} (hk : k ≤ 9) :
    pyIntOfChar (Char.ofNat (k + 48)) = .ok k := by
  interval_cases k <;> decide

/-- Applying the rendered move text back to the grid reproduces the extension,
provided both cell indices fit in a single digit. -/
theorem move_extend {g : Grid} (hwf : WF g) (hsz : SizeOK g) (hgood : Good g)
    {ri ci : Nat} (hfe : firstEmptyCell g = some (ri, ci)) (hri9 : ri ≤ 9)
    (hci9 : ci ≤ 9) {L : Char} (hL : L ∈ candidates g ri ci) :
    move g (('(' :: Nat.toDigits 10 ri) ++ (',' :: ' ' :: Nat.toDigits 10 ci) ++
      (')' :: ' ' :: '-' :: '>' :: ' ' :: [L])) = .ok (extend g L ri ci) := by
  obtain ⟨hri, hci, hcell, _, _⟩ := firstEmptyCell_spec hwf hfe
  rw [toDigits_single hri9, toDigits_single hci9]
  have hmove : move g (('(' :: [Char.ofNat (ri + 48)]) ++
      (',' :: ' ' :: [Char.ofNat (ci + 48)]) ++
      (')' :: ' ' :: '-' :: '>' :: ' ' :: [L])) =
    (pyIntOfChar (Char.ofNat (ri + 48))).bind (fun ri2 =>
      (pyIntOfChar (Char.ofNat (ci + 48))).bind (fun ci2 =>
        (possible_letters g ri2 ci2).bind (fun pls =>
          if ri2 ∉ List.range (n g) ∨ ci2 ∉ List.range (n g) then
            .error .valueError
          else if L ∉ pls then .error .valueError
          else if cellAt g ri2 ci2 ≠ none then .error .valueError
          else .ok (extend g L ri2 ci2)))) := rfl
  rw [hmove, pyIntOfChar_digit hri9, pyIntOfChar_digit hci9]
  show (possible_letters g ri ci).bind _ = _
  rw [possible_letters_eq g ri ci hsz (hgood.2.1 ci (List.mem_range.mpr hci))
    hri hci]
  show (if ri ∉ List.range (n g) ∨ ci ∉ List.range (n g) then
      Except.error PyErr.valueError
    else if L ∉ candidates g ri ci then Except.error PyErr.valueError
    else if cellAt g ri ci ≠ none then Except.error PyErr.valueError
    else Except.ok (extend g L ri ci)) = Except.ok (extend g L ri ci)
  rw [if_neg (show ¬(ri ∉ List.range (n g) ∨ ci ∉ List.range (n g)) from by
    rw [not_or, not_not, not_not]
    exact ⟨List.mem_range.mpr hri, List.mem_range.mpr hci⟩)]
  rw [if_neg (not_not.mpr hL)]
  rw [if_neg (not_not.mpr hcell)]

end SudokuPuzzle

/-- C1: the claim that `solve(s)` is `None` exactly when `solve_all(s)` is
empty fails on an already-solved word-ladder puzzle: `solve_in_breadth` never
tests the initial state for solvedness, so `solve` returns `None` while
`solve_complete` returns the singleton solution.  This theorem evaluates the
embedded code at that failing input. -/
theorem claim1_solve_vs_solve_all_eval :
    WordLadderPuzzle.is_solved Examples.solvedLadder = true ∧
    solve_ladder Examples.catVocab 4 Examples.solvedLadder = some none ∧
    solve_complete_wl Examples.catVocab 4 Examples.solvedLadder =
      some [Examples.solvedLadder] :=
  ⟨by decide, by decide, by decide⟩

/-- C3: the claim that a move naming a row or column outside `[0, n)` raises
`ValueError` fails: `move` computes `_possible_letters` before its range
check, and `_find_subsquare` leaves its loop variable unassigned for an
out-of-range index, raising `UnboundLocalError` instead.  This theorem
evaluates the embedded code at the failing input `(5, 0) -> A` on a 4-by-4
grid. -/
theorem claim3_out_of_range_eval :
    SudokuPuzzle.move Examples.emptyGrid4 Examples.oobMove =
      .error .unboundLocalError ∧
    PyErr.unboundLocalError ≠ PyErr.valueError :=
  ⟨by decide, by decide⟩

/-- C8: `solve_in_breadth` terminates on every finite vocabulary: the shared
accumulator grows with each enqueued successor and successor generation
excludes accumulated words, so fuel `2|V| + 2` always suffices. -/
theorem claim8_breadth_terminates {V : List Word} {L : Nat}
    (hV : WordLadderPuzzle.VocabOK V L) {root : WordLadderPuzzle}
    (hroot : WordLadderPuzzle.Inv root) (hrl : root.start.length = L)
    (hint : Bool) :
    solve_in_breadth V (2 * V.length + 2) root hint ≠ none :=
  WordLadderPuzzle.solve_in_breadth_some hV root hroot hrl hint

theorem claim8_breadth_terminates_witness :
    WordLadderPuzzle.VocabOK Examples.batRatVocab 3 ∧
    WordLadderPuzzle.Inv Examples.catToDog ∧
    solve_in_breadth Examples.batRatVocab (2 * Examples.batRatVocab.length + 2)
      Examples.catToDog false ≠ none :=
  ⟨by decide, by decide,
    @claim8_breadth_terminates Examples.batRatVocab 3 (by decide)
      Examples.catToDog (by decide) (by decide) false⟩

/-- C9: the claim that no operation mutates an existing instance fails for
`add_tried_words`, which reassigns the receiver's tried words: the display
string is unchanged but the subsequent `extensions()` result differs. -/
theorem claim9_counterexample :
    WordLadderPuzzle.strWL (Examples.catToDog.add_tried_words [['b', 'a', 't']]) =
      WordLadderPuzzle.strWL Examples.catToDog ∧
    WordLadderPuzzle.extensions Examples.batVocab
        (Examples.catToDog.add_tried_words [['b', 'a', 't']]) ≠
      WordLadderPuzzle.extensions Examples.batVocab Examples.catToDog :=
  ⟨by decide, by decide⟩

/-- C9 (amended): `is_solved`, `extensions`, `move`, `generate_strings` and
display never mutate a state, but `add_tried_words` mutates the receiver in
place: it replaces exactly the tried-words attribute, leaving the start,
target, used words and hence the display string unchanged (while later
`extensions()` calls may change). -/
theorem claim9_mutation_scope (s : WordLadderPuzzle) (tw : List Word) :
    WordLadderPuzzle.strWL (s.add_tried_words tw) = WordLadderPuzzle.strWL s ∧
    (s.add_tried_words tw).start = s.start ∧
    (s.add_tried_words tw).target = s.target ∧
    (s.add_tried_words tw).used_words = s.used_words ∧
    (s.add_tried_words tw).tried_words = tw :=
  ⟨rfl, rfl, rfl, rfl, rfl⟩

/-- C10: committing a move reuses a display-equal child of the current
history node as the cursor (no node created), otherwise attaches exactly one
new child holding the state and move text and moves the cursor there; the
children of the node stay pairwise display-distinct, and re-inserting the
same resulting state reuses the child instead of duplicating it. -/
theorem claim10_history_insert {P : Type} (disp : P → Word)
    (t : ControllerTree P) (p : P) (a : Word)
    (hinv : ControllerTree.ChildrenDistinct disp t) :
    (∀ c, ControllerTree.in_subtree disp t p = some c →
      ControllerTree.act_move_insert disp t p a = (t, c) ∧
        disp c.puzzle = disp p) ∧
    (ControllerTree.in_subtree disp t p = none →
      ControllerTree.act_move_insert disp t p a =
        (ControllerTree.node t.puzzle t.user_input
          (t.subtrees ++ [ControllerTree.node p (some a) []]),
         ControllerTree.node p (some a) [])) ∧
    ControllerTree.ChildrenDistinct disp
      (ControllerTree.act_move_insert disp t p a).1 ∧
    (ControllerTree.act_move_insert disp
        (ControllerTree.act_move_insert disp t p a).1 p a).1 =
      (ControllerTree.act_move_insert disp t p a).1 := by
  refine ⟨?_, ?_, ?_, ?_⟩
  · intro c hc
    unfold ControllerTree.act_move_insert
    rw [hc]
    have hc2 : t.subtrees.find?
        (fun st => decide (disp st.puzzle = disp p)) = some c := hc
    have hpc := List.find?_some hc2
    exact ⟨rfl, of_decide_eq_true hpc⟩
  · intro hnone
    unfold ControllerTree.act_move_insert
    rw [hnone]
  · cases hc : ControllerTree.in_subtree disp t p with
    | some c =>
      unfold ControllerTree.act_move_insert
      rw [hc]
      exact hinv
    | none =>
      unfold ControllerTree.act_move_insert
      rw [hc]
      show (ControllerTree.node t.puzzle t.user_input
        (t.subtrees ++ [ControllerTree.node p (some a) []])).subtrees.Pairwise _
      show (t.subtrees ++ [ControllerTree.node p (some a) []]).Pairwise _
      rw [List.pairwise_append]
      refine ⟨hinv, List.pairwise_singleton _ _, ?_⟩
      intro x hx b hb
      rw [List.mem_singleton.mp hb]
      have := List.find?_eq_none.mp hc x hx
      simpa using this
  · cases hc : ControllerTree.in_subtree disp t p with
    | some c =>
      unfold ControllerTree.act_move_insert
      rw [hc]
      show (ControllerTree.act_move_insert disp t p a).1 = t
      unfold ControllerTree.act_move_insert
      rw [hc]
    | none =>
      unfold ControllerTree.act_move_insert
      rw [hc]
      show (match ControllerTree.in_subtree disp
          (ControllerTree.node t.puzzle t.user_input
            (t.subtrees ++ [ControllerTree.node p (some a) []])) p with
        | some st => (ControllerTree.node t.puzzle t.user_input
            (t.subtrees ++ [ControllerTree.node p (some a) []]), st)
        | none => _).1 = _
      have hfind : ControllerTree.in_subtree disp
          (ControllerTree.node t.puzzle t.user_input
            (t.subtrees ++ [ControllerTree.node p (some a) []])) p =
          some (ControllerTree.node p (some a) []) := by
        unfold ControllerTree.in_subtree
        show (t.subtrees ++ [ControllerTree.node p (some a) []]).find? _ = _
        have hc2 : t.subtrees.find?
            (fun st => decide (disp st.puzzle = disp p)) = none := hc
        rw [List.find?_append, hc2]
        simp [ControllerTree.puzzle]
      rw [hfind]

theorem claim10_history_insert_witness :
    ControllerTree.ChildrenDistinct (fun k : Nat => [Char.ofNat (48 + k % 10)])
      (ControllerTree.node 0 none []) ∧
    (ControllerTree.act_move_insert (fun k : Nat => [Char.ofNat (48 + k % 10)])
        (ControllerTree.act_move_insert (fun k : Nat => [Char.ofNat (48 + k % 10)])
          (ControllerTree.node 0 none []) 1 ['x']).1 1 ['x']).1 =
      (ControllerTree.act_move_insert (fun k : Nat => [Char.ofNat (48 + k % 10)])
        (ControllerTree.node 0 none []) 1 ['x']).1 :=
  ⟨by decide,
    (claim10_history_insert (fun k : Nat => [Char.ofNat (48 + k % 10)])
      (ControllerTree.node 0 none []) 1 ['x'] (by decide)).2.2.2⟩

set_option maxRecDepth 10000 in
/-- C2: the round-trip claim fails on a 16-by-16 grid whose first empty cell
sits in row 10: `generate_strings` renders the move `(10, 0) -> N`, but
`move` parses single characters at positions 1 and 4 of the text, so it reads
row `1` and then hits the space at position 4, where `int(' ')` raises
`ValueError`.  This theorem evaluates the embedded code at that failing
input. -/
theorem claim2_counterexample :
    SudokuPuzzle.firstEmptyCell Examples.bigGrid16 = some (10, 0) ∧
    SudokuPuzzle.extensions Examples.bigGrid16 =
      .ok (['N', 'O', 'P'].map
        (fun L => SudokuPuzzle.extend Examples.bigGrid16 L 10 0)) ∧
    SudokuPuzzle.generate_strings Examples.bigGrid16
        (SudokuPuzzle.extend Examples.bigGrid16 'N' 10 0) =
      .ok "(10, 0) -> N".toList ∧
    SudokuPuzzle.move Examples.bigGrid16 "(10, 0) -> N".toList =
      .error .valueError :=
  ⟨by decide, by decide, by decide, by decide⟩

/-- C2 (amended): the round trip does hold for every word-ladder state, and
for every grid whose first empty cell has single-digit row and column
indices: applying the rendered move text reproduces the extension exactly
(hence with an equal display string). -/
theorem claim2_roundtrip {g : SudokuPuzzle.Grid} (hwf : SudokuPuzzle.WF g)
    (hsz : SudokuPuzzle.SizeOK g) (hgood : SudokuPuzzle.Good g)
    {ri ci : Nat} (hfe : SudokuPuzzle.firstEmptyCell g = some (ri, ci))
    (hri9 : ri ≤ 9) (hci9 : ci ≤ 9) :
    (∀ l, SudokuPuzzle.extensions g = .ok l → ∀ e ∈ l,
      ∃ mv, SudokuPuzzle.generate_strings g e = .ok mv ∧
        SudokuPuzzle.move g mv = .ok e) ∧
    ∀ (V : List Word) (s e : WordLadderPuzzle),
      e ∈ WordLadderPuzzle.extensions V s →
      WordLadderPuzzle.move V s (WordLadderPuzzle.generate_strings s e) =
        .ok e := by
  constructor
  · intro l hl e he
    have hext := (SudokuPuzzle.extensions_eq hwf hsz hgood).2 ri ci hfe
    rw [hext] at hl
    injection hl with h2
    subst h2
    rcases List.mem_map.mp he with ⟨L, hL, rfl⟩
    exact ⟨_, SudokuPuzzle.generate_strings_extend hwf hsz hfe L,
      SudokuPuzzle.move_extend hwf hsz hgood hfe hri9 hci9 hL⟩
  · intro V2 s e he
    rcases WordLadderPuzzle.mem_extensions.mp he with ⟨w, hw, rfl⟩
    show WordLadderPuzzle.move V2 s w = .ok (WordLadderPuzzle.extend s w)
    unfold WordLadderPuzzle.move
    rw [if_neg (not_not.mpr hw)]

theorem claim2_roundtrip_witness :
    SudokuPuzzle.WF Examples.docGrid4 ∧
    SudokuPuzzle.SizeOK Examples.docGrid4 ∧
    SudokuPuzzle.Good Examples.docGrid4 ∧
    SudokuPuzzle.firstEmptyCell Examples.docGrid4 = some (2, 2) ∧
    (∃ mv, SudokuPuzzle.generate_strings Examples.docGrid4
        (SudokuPuzzle.extend Examples.docGrid4 'D' 2 2) = .ok mv ∧
      SudokuPuzzle.move Examples.docGrid4 mv =
        .ok (SudokuPuzzle.extend Examples.docGrid4 'D' 2 2)) :=
  ⟨by decide, by decide, by decide, by decide,
    (@claim2_roundtrip Examples.docGrid4 (by decide) (by decide) (by decide)
        2 2 (by decide) (by decide) (by decide)).1
      ((SudokuPuzzle.candidates Examples.docGrid4 2 2).map
        (fun L => SudokuPuzzle.extend Examples.docGrid4 L 2 2))
      (by decide) (SudokuPuzzle.extend Examples.docGrid4 'D' 2 2) (by decide)⟩

/-- C4: on a conflict-free well-formed grid, `extensions` returns the empty
list when no cell is empty (solved or not), and otherwise exactly one
successor per candidate letter of the first empty cell in row-major order,
in strictly increasing alphabetical order, each successor filling exactly
that cell with that letter. -/
theorem claim4_grid_extensions {g : SudokuPuzzle.Grid}
    (hwf : SudokuPuzzle.WF g) (hsz : SudokuPuzzle.SizeOK g)
    (hgood : SudokuPuzzle.Good g) :
    (SudokuPuzzle.firstEmptyCell g = none →
      SudokuPuzzle.extensions g = .ok []) ∧
    ∀ ri ci, SudokuPuzzle.firstEmptyCell g = some (ri, ci) →
      ri < SudokuPuzzle.n g ∧ ci < SudokuPuzzle.n g ∧
      SudokuPuzzle.cellAt g ri ci = none ∧
      (∀ j, j < ci → SudokuPuzzle.cellAt g ri j ≠ none) ∧
      (∀ i, i < ri → none ∉ g.getD i []) ∧
      SudokuPuzzle.extensions g =
        .ok ((SudokuPuzzle.candidates g ri ci).map
          (fun L => SudokuPuzzle.extend g L ri ci)) ∧
      (SudokuPuzzle.candidates g ri ci).Pairwise (· < ·) ∧
      ∀ L i j, SudokuPuzzle.cellAt (SudokuPuzzle.extend g L ri ci) i j =
        if i = ri ∧ j = ci then some L else SudokuPuzzle.cellAt g i j := by
  refine ⟨(SudokuPuzzle.extensions_eq hwf hsz hgood).1, ?_⟩
  intro ri ci hfe
  obtain ⟨hri, hci, hcell, hcol, hrow⟩ :=
    SudokuPuzzle.firstEmptyCell_spec hwf hfe
  exact ⟨hri, hci, hcell, hcol, hrow,
    (SudokuPuzzle.extensions_eq hwf hsz hgood).2 ri ci hfe,
    SudokuPuzzle.candidates_sorted g ri ci,
    fun L i j => SudokuPuzzle.cellAt_extend hwf hri hci L i j⟩

theorem claim4_grid_extensions_witness :
    SudokuPuzzle.WF Examples.docGrid4 ∧
    SudokuPuzzle.SizeOK Examples.docGrid4 ∧
    SudokuPuzzle.Good Examples.docGrid4 ∧
    SudokuPuzzle.extensions Examples.docGrid4 =
      .ok ((SudokuPuzzle.candidates Examples.docGrid4 2 2).map
        (fun L => SudokuPuzzle.extend Examples.docGrid4 L 2 2)) :=
  ⟨by decide, by decide, by decide,
    ((@claim4_grid_extensions Examples.docGrid4 (by decide) (by decide)
      (by decide)).2 2 2 (by decide)).2.2.2.2.2.1⟩

/-- C5: `extensions` on a word-ladder state returns one successor per
vocabulary word that is unused, untried, and one character away from the
current word, sorted alphabetically and duplicate-free, each successor
keeping the target and carrying the used words with the new word appended. -/
theorem claim5_ladder_extensions {V : List Word} {s : WordLadderPuzzle}
    (hInv : WordLadderPuzzle.Inv s)
    (hlen : ∀ w ∈ V, w.length = s.start.length) (hV : V.Nodup) :
    (∀ w, w ∈ WordLadderPuzzle.possible_words V s ↔
      w ∈ V ∧ w ∉ s.used_words ++ s.tried_words ∧
        WordLadderPuzzle.diffCount w s.start = 1) ∧
    List.Sorted wordLeP (WordLadderPuzzle.possible_words V s) ∧
    (WordLadderPuzzle.possible_words V s).Nodup ∧
    WordLadderPuzzle.extensions V s =
      (WordLadderPuzzle.possible_words V s).map
        (fun w => ⟨w, s.target, s.used_words ++ [w], []⟩) := by
  refine ⟨?_, WordLadderPuzzle.possible_words_sorted V s,
    WordLadderPuzzle.possible_words_nodup hInv hlen hV, rfl⟩
  intro w
  rw [WordLadderPuzzle.mem_possible_words hInv hlen]
  unfold WordLadderPuzzle.specCandidate
  rw [decide_eq_true_eq]

theorem claim5_ladder_extensions_witness :
    WordLadderPuzzle.Inv Examples.catToDog ∧
    (∀ w ∈ Examples.batRatVocab, w.length = Examples.catToDog.start.length) ∧
    Examples.batRatVocab.Nodup ∧
    WordLadderPuzzle.extensions Examples.batRatVocab Examples.catToDog =
      (WordLadderPuzzle.possible_words Examples.batRatVocab
          Examples.catToDog).map
        (fun w => ⟨w, Examples.catToDog.target,
          Examples.catToDog.used_words ++ [w], []⟩) :=
  ⟨by decide, by decide, by decide,
    (@claim5_ladder_extensions Examples.batRatVocab Examples.catToDog
      (by decide) (by decide) (by decide)).2.2.2⟩

/-- C6: `hint_by_depth` returns the already-solved sentinel on solved grids;
otherwise it returns the rendered move to the first extension, in order,
that reaches a solved grid within `limit - 1` further moves, and the
no-possible-extensions sentinel when none does. -/
theorem claim6_hint_by_depth {g : SudokuPuzzle.Grid}
    (hwf : SudokuPuzzle.WF g) (hsz : SudokuPuzzle.SizeOK g)
    (hgood : SudokuPuzzle.Good g) (limit : Nat) :
    (SudokuPuzzle.is_solved g = true →
      SudokuPuzzle.hint_by_depth g limit = .ok alreadyStr) ∧
    (SudokuPuzzle.is_solved g = false →
      ∀ l, SudokuPuzzle.extensions g = .ok l →
      ((∀ e ∈ l, ¬ SudokuPuzzle.Solvable e (limit - 1)) →
        SudokuPuzzle.hint_by_depth g limit = .ok noExtensionsStr) ∧
      (∀ i, (hi : i < l.length) →
        SudokuPuzzle.Solvable (l.get ⟨i, hi⟩) (limit - 1) →
        (∀ j, j < i → ¬ SudokuPuzzle.Solvable (l.getD j []) (limit - 1)) →
        SudokuPuzzle.hint_by_depth g limit =
          SudokuPuzzle.generate_strings g (l.get ⟨i, hi⟩))) := by
  constructor
  · intro hs
    unfold SudokuPuzzle.hint_by_depth
    rw [if_pos hs]
  · intro hs l hl
    have hgoodl : ∀ e ∈ l, SudokuPuzzle.WF e ∧ SudokuPuzzle.SizeOK e ∧
        SudokuPuzzle.Good e := by
      cases hfe : SudokuPuzzle.firstEmptyCell g with
      | none =>
        have h0 := (SudokuPuzzle.extensions_eq hwf hsz hgood).1 hfe
        rw [h0] at hl
        injection hl with h2
        subst h2
        intro e he
        exact absurd he (List.not_mem_nil e)
      | some pair =>
        obtain ⟨ri, ci⟩ := pair
        have h0 := (SudokuPuzzle.extensions_eq hwf hsz hgood).2 ri ci hfe
        rw [h0] at hl
        injection hl with h2
        subst h2
        intro e he
        exact SudokuPuzzle.extensions_elem_good hwf hsz hgood hfe he
    obtain ⟨part1, part2⟩ := SudokuPuzzle.hintLoop_spec g (limit - 1) l hgoodl
    have hrun : SudokuPuzzle.hint_by_depth g limit =
        SudokuPuzzle.hintLoop g (limit - 1) l := by
      unfold SudokuPuzzle.hint_by_depth
      rw [if_neg (show ¬ SudokuPuzzle.is_solved g = true from by
        rw [hs]; exact Bool.false_ne_true), hl]
      rfl
    exact ⟨fun hn => hrun.trans (part1 hn), fun i hi hsolv hprev =>
      hrun.trans (part2 i hi hsolv hprev)⟩

theorem claim6_hint_by_depth_witness :
    SudokuPuzzle.WF Examples.solvedGrid4 ∧
    SudokuPuzzle.SizeOK Examples.solvedGrid4 ∧
    SudokuPuzzle.Good Examples.solvedGrid4 ∧
    SudokuPuzzle.is_solved Examples.solvedGrid4 = true ∧
    SudokuPuzzle.hint_by_depth Examples.solvedGrid4 100 = .ok alreadyStr :=
  ⟨by decide, by decide, by decide, by decide,
    (@claim6_hint_by_depth Examples.solvedGrid4 (by decide) (by decide)
      (by decide) 100).1 (by decide)⟩

/-- C7: within one breadth-first step over a duplicate-free vocabulary, the
successors generated for a dequeued state exclude every word already in the
shared accumulator, and after processing them the accumulator is still
duplicate-free, extends its old value, and stays inside the vocabulary — so
no word is ever enqueued twice in a call. -/
theorem claim7_no_reenqueue {V : List Word} {L : Nat}
    (hV : WordLadderPuzzle.VocabOK V L) {p : WordLadderPuzzle}
    (hp : WordLadderPuzzle.Inv p) (hpl : p.start.length = L)
    {acc : List Word} (hacc : acc.Nodup) (haccV : ∀ w ∈ acc, w ∈ V)
    {root : WordLadderPuzzle} {hint : Bool}
    {queue q2 : List (WordLadderPuzzle × Bool)} {acc2 : List Word}
    (h : bfs_process root hint
        (WordLadderPuzzle.extensions V (p.add_tried_words acc)) queue acc =
      .inr (q2, acc2)) :
    (∀ e ∈ WordLadderPuzzle.extensions V (p.add_tried_words acc),
      e.start ∉ acc) ∧
    acc2.Nodup ∧ (∃ new, acc2 = acc ++ new) ∧ ∀ w ∈ acc2, w ∈ V := by
  have hinv2 : WordLadderPuzzle.Inv (p.add_tried_words acc) := hp
  have hl2 : (p.add_tried_words acc).start.length = L := hpl
  have hspec := WordLadderPuzzle.extensions_words_spec hV hinv2 hl2
  obtain ⟨hnd, hmem, hpre, _⟩ := WordLadderPuzzle.bfs_loop_step_inv hV hp hpl
    hacc haccV h
  refine ⟨?_, hnd, hpre, hmem⟩
  intro e he
  exact (hspec.1 e he).2.1

theorem claim7_no_reenqueue_witness :
    WordLadderPuzzle.VocabOK Examples.batRatVocab 3 ∧
    WordLadderPuzzle.Inv Examples.catToDog ∧
    ((∀ e ∈ WordLadderPuzzle.extensions Examples.batRatVocab
          (Examples.catToDog.add_tried_words []),
        e.start ∉ ([] : List Word)) ∧
      ([['b', 'a', 't'], ['r', 'a', 't']] : List Word).Nodup ∧
      (∃ new, ([['b', 'a', 't'], ['r', 'a', 't']] : List Word) = [] ++ new) ∧
      ∀ w ∈ ([['b', 'a', 't'], ['r', 'a', 't']] : List Word),
        w ∈ Examples.batRatVocab) :=
  ⟨by decide, by decide,
    @claim7_no_reenqueue Examples.batRatVocab 3 (by decide) Examples.catToDog
      (by decide) (by decide) [] (by decide) (by decide) Examples.catToDog
      false []
      [(WordLadderPuzzle.extend (Examples.catToDog.add_tried_words [])
          ['b', 'a', 't'], true),
       (WordLadderPuzzle.extend (Examples.catToDog.add_tried_words [])
          ['r', 'a', 't'], true)]
      [['b', 'a', 't'], ['r', 'a', 't']] (by decide)⟩
